import Mathlib

/-!
# Verification of the Airplane-Flight-Optimizer shortest-path core

A shallow embedding of the C++ core (`Graph.h`, `Graph.cpp`, `Dijkstra.h`,
`Dijkstra.cpp`) together with proofs about it.

Modelling decisions, in one place:

* Airport identifiers are `String`, as in the source.
* Edge weights (`double` in the source) are modelled as `ℚ`; the `double`
  value `std::numeric_limits<double>::infinity()` that the algorithm uses as
  the "unvisited" sentinel is modelled by `⊤` of `WithTop ℚ`. The spec itself
  states that distances are non-negative reals, that infinity must compare
  greater than any finite accumulated distance, and that only value-level
  (not representation-level) behaviour is part of the contract.
* `std::unordered_map` is modelled as an association list with the map's
  operations: `lookupKey` (`find`), `setKey` (`operator[]` assignment, which
  overwrites an existing key and otherwise inserts), and `getIns`
  (`operator[]` read, which value-initialises and inserts a default entry for
  an absent key and returns the stored value otherwise). Iteration order of
  an `unordered_map` is unspecified in C++; the model fixes insertion order.
  The only map iteration in the source is the initialisation loop of
  `findShortestPath`, which is order-insensitive (it writes the same value
  for every key).
* `std::priority_queue<QueueNode, vector<QueueNode>, greater<>>` is a binary
  min-heap on `distance`; the order in which it returns *equal* keys is
  implementation-defined. The model keeps the queue as a list, `push` appends
  and `popMin` removes the leftmost minimal element, which realises one of
  the behaviours the C++ heap may exhibit (the spec declares tie-breaking
  implementation-defined).
* The two `while` loops of `Dijkstra.cpp` are not structurally recursive, so
  they are modelled with explicit fuel. Both loops return a `Bool` that is
  `true` exactly when the loop reached its own exit condition (rather than
  exhausting the fuel). `findShortestPath` runs the main loop with fuel
  `edgeCount g + 2` and the reconstruction loop with fuel
  `g.adjList.length + 2`; the termination theorems below prove these bounds
  are never exhausted for graphs with non-negative weights, so the fuelled
  functions agree with the C++ loops there.
-/

namespace AFO

/-- `struct Edge` of `Graph.h`: destination airport and distance. -/
structure Edge where
  destination : String
  distance : ℚ
deriving DecidableEq

/-- `class Graph` of `Graph.h`: the adjacency map from airport id to its
outgoing edges, modelled as an association list. -/
structure Graph where
  adjList : List (String × List Edge)
deriving DecidableEq

/-- `unordered_map::find`, returning the stored value. -/
def lookupKey {α : Type} : List (String × α) → String → Option α
  | [], _ => none
  | (k, v) :: rest, x => if k = x then some v else lookupKey rest x

/-- `unordered_map::operator[]` followed by assignment: overwrite the value if
the key is present, otherwise insert the pair (at the end, matching the
insertion-ordered model). -/
def setKey {α : Type} : List (String × α) → String → α → List (String × α)
  | [], x, v => [(x, v)]
  | (k, w) :: rest, x, v => if k = x then (k, v) :: rest else (k, w) :: setKey rest x v

/-- `unordered_map::operator[]` used as a read: return the stored value, or
value-initialise an entry with default `d` and return it. The (possibly
extended) map is returned alongside the value. -/
def getIns {α : Type} : List (String × α) → String → α → α × List (String × α)
  | [], x, d => (d, [(x, d)])
  | (k, w) :: rest, x, d =>
    if k = x then (w, (k, w) :: rest)
    else
      let p := getIns rest x d
      (p.1, (k, w) :: p.2)

/-- `Graph::hasAirport` (`Graph.cpp`, lines 15-17). -/
def Graph.hasAirport (g : Graph) (airportId : String) : Bool :=
  (lookupKey g.adjList airportId).isSome

/-- `Graph::getRoutes` (`Graph.cpp`, lines 9-13): the stored edge list, or the
shared empty vector when the airport is absent. -/
def Graph.getRoutes (g : Graph) (airportId : String) : List Edge :=
  (lookupKey g.adjList airportId).getD []

/-- `Graph::addAirport` (`Graph.h`, lines 18-23): insert an empty edge list if
the airport does not exist. -/
def Graph.addAirport (g : Graph) (airportId : String) : Graph :=
  if g.hasAirport airportId then g else ⟨g.adjList ++ [(airportId, [])]⟩

/-- `adjList[x].push_back(e)`: `operator[]` auto-creates an empty entry for an
absent key, then the edge is appended to the entry's vector. -/
def pushEdge : List (String × List Edge) → String → Edge → List (String × List Edge)
  | [], x, e => [(x, [e])]
  | (k, es) :: rest, x, e =>
    if k = x then (k, es ++ [e]) :: rest else (k, es) :: pushEdge rest x e

/-- `Graph::addRoute` (`Graph.cpp`, lines 3-7): append the edge in both
directions. -/
def Graph.addRoute (g : Graph) (source destination : String) (distance : ℚ) : Graph :=
  ⟨pushEdge (pushEdge g.adjList source ⟨destination, distance⟩) destination
    ⟨source, distance⟩⟩

/-- `struct QueueNode` of `Dijkstra.cpp`. -/
structure QueueNode where
  airportId : String
  distance : ℚ
deriving DecidableEq

/-- `struct PathResult` of `Dijkstra.h` with its C++ default initialisation
(empty path, total distance 0). -/
structure PathResult where
  path : List String := []
  totalDistance : WithTop ℚ := 0
deriving DecidableEq

/-- `pq.top()` / `pq.pop()` of the min-heap: remove a minimal-distance entry
(the leftmost one in the list model). -/
def popMin : List QueueNode → Option (QueueNode × List QueueNode)
  | [] => none
  | x :: xs =>
    match popMin xs with
    | none => some (x, [])
    | some (m, rest) =>
      if x.distance ≤ m.distance then some (x, xs) else some (m, x :: rest)

/-- The mutable state of the main loop of `findShortestPath`. -/
structure LoopState where
  pq : List QueueNode
  dist : List (String × WithTop ℚ)
  prev : List (String × String)
deriving DecidableEq

/-- The inner `for` loop of `Dijkstra.cpp` (lines 52-62): relax every outgoing
edge of the current airport, updating `distances`, `previous` and pushing
improved neighbours onto the queue. -/
def relaxEdges (curd : ℚ) (curId : String) :
    List Edge → List (String × WithTop ℚ) → List (String × String) → List QueueNode →
      List (String × WithTop ℚ) × List (String × String) × List QueueNode
  | [], dist, prev, pq => (dist, prev, pq)
  | e :: es, dist, prev, pq =>
    let newDist := curd + e.distance
    let p := getIns dist e.destination 0
    if (newDist : WithTop ℚ) < p.1 then
      relaxEdges curd curId es (setKey p.2 e.destination (newDist : WithTop ℚ))
        (setKey prev e.destination curId) (pq ++ [⟨e.destination, newDist⟩])
    else
      relaxEdges curd curId es p.2 prev pq

/-- The main `while (!pq.empty())` loop of `Dijkstra.cpp` (lines 41-63), with
fuel. The `Bool` is `true` when the loop exited by its own condition (queue
empty or target popped) and `false` when the fuel ran out first. -/
def dijkstraLoop (g : Graph) (targetId : String) : Nat → LoopState → LoopState × Bool
  | 0, st => (st, false)
  | fuel + 1, st =>
    match popMin st.pq with
    | none => (st, true)
    | some (current, pqRest) =>
      if current.airportId = targetId then (⟨pqRest, st.dist, st.prev⟩, true)
      else
        let p := getIns st.dist current.airportId 0
        if p.1 < (current.distance : WithTop ℚ) then
          dijkstraLoop g targetId fuel ⟨pqRest, p.2, st.prev⟩
        else
          let r := relaxEdges current.distance current.airportId
            (g.getRoutes current.airportId) p.2 st.prev pqRest
          dijkstraLoop g targetId fuel ⟨r.2.2, r.1, r.2.1⟩

/-- The initialisation loop of `Dijkstra.cpp` (lines 30-33), distances part:
every known airport's tentative distance is set to infinity. -/
def initDist (g : Graph) : List (String × WithTop ℚ) :=
  g.adjList.foldl (fun m pr => setKey m pr.1 ⊤) []

/-- The initialisation loop of `Dijkstra.cpp` (lines 30-33), predecessors
part: every known airport's predecessor is set to the empty string. -/
def initPrev (g : Graph) : List (String × String) :=
  g.adjList.foldl (fun m pr => setKey m pr.1 "") []

/-- The reconstruction loop of `Dijkstra.cpp` (lines 66-70): walk predecessor
links backward from the target, inserting each visited airport at the front of
the path, until the current id is `""` or has no entry in `previous`. The
`Bool` is `true` when the loop exited by its own condition. -/
def reconstruct (prev : List (String × String)) :
    Nat → String → List String → List String × Bool
  | 0, _, path => (path, false)
  | fuel + 1, curr, path =>
    if curr = "" then (path, true)
    else
      match lookupKey prev curr with
      | none => (path, true)
      | some p => reconstruct prev fuel p (curr :: path)

/-- Total number of directed adjacency entries stored in the graph. -/
def edgeCount (g : Graph) : Nat := (g.adjList.map (fun pr => pr.2.length)).sum

/-- `findShortestPath` (`Dijkstra.cpp`, lines 14-78). -/
def findShortestPath (g : Graph) (sourceId targetId : String) : PathResult :=
  if !g.hasAirport sourceId || !g.hasAirport targetId then {}
  else
    let dist0 := setKey (initDist g) sourceId (0 : WithTop ℚ)
    let st := dijkstraLoop g targetId (edgeCount g + 2)
      ⟨[⟨sourceId, 0⟩], dist0, initPrev g⟩
    let rec0 := reconstruct st.1.prev (g.adjList.length + 2) targetId []
    { path := rec0.1,
      totalDistance :=
        match lookupKey st.1.dist targetId with
        | some d => d
        | none => 0 }

/-! ## Specification-side notions: walks, well-formedness, graph construction -/

/-- `IsWalk g u t vs c`: `vs` is the vertex sequence (endpoints included) of a
walk from `u` to `t` in `g` whose traversed edge weights sum to `c`. Edges are
the stored directed adjacency entries, so an undirected route contributes both
directions. A path in the usual sense is a walk whose vertex list has no
duplicates. -/
inductive IsWalk (g : Graph) (u : String) : String → List String → ℚ → Prop
  | nil : IsWalk g u u [u] 0
  | snoc {v t : String} {vs : List String} {c w : ℚ} (hw : IsWalk g u v vs c)
      (he : Edge.mk t w ∈ g.getRoutes v) : IsWalk g u t (vs ++ [t]) (c + w)

/-- Structural well-formedness that every graph built through the `Graph` API
enjoys: adjacency keys are pairwise distinct and every stored edge points at a
known airport (`addRoute` auto-creates both endpoints). -/
def WF (g : Graph) : Prop :=
  (g.adjList.map Prod.fst).Nodup ∧
    ∀ pr ∈ g.adjList, ∀ e ∈ pr.2, g.hasAirport e.destination = true

/-- All stored edge weights are non-negative (the spec's precondition for
Dijkstra's guarantees). -/
def NonNeg (g : Graph) : Prop :=
  ∀ pr ∈ g.adjList, ∀ e ∈ pr.2, 0 ≤ e.distance

/-- A single graph-construction call of the public `Graph` API. -/
inductive Op
  | addAirport (id : String)
  | addRoute (a b : String) (w : ℚ)

/-- Apply one construction call. -/
def applyOp (g : Graph) : Op → Graph
  | .addAirport id => g.addAirport id
  | .addRoute a b w => g.addRoute a b w

/-- The graph built by a sequence of API calls starting from the default-constructed
(empty) graph. -/
def buildGraph (ops : List Op) : Graph := ops.foldl applyOp ⟨[]⟩

/-- The airport ids an operation mentions (and hence adds if missing). -/
def opIds : Op → List String
  | .addAirport id => [id]
  | .addRoute a b _ => [a, b]

/-! ## Association-list lemmas -/

theorem lookupKey_setKey {α : Type} (m : List (String × α)) (k : String) (v : α)
    (x : String) :
    lookupKey (setKey m k v) x = if k = x then some v else lookupKey m x := by
  induction m with
  | nil => simp [setKey, lookupKey]
  | cons hd tl ih =>
    obtain ⟨k', v'⟩ := hd
    by_cases h : k' = k
    · subst h
      by_cases hx : k' = x <;> simp [setKey, lookupKey, hx]
    · by_cases hx : k' = x
      · subst hx
        have : ¬ k = k' := fun hh => h hh.symm
        simp [setKey, lookupKey, h, this]
      · simp [setKey, lookupKey, h, hx, ih]

theorem getIns_of_lookup_some {α : Type} {m : List (String × α)} {k : String} {v : α}
    (d : α) (h : lookupKey m k = some v) : getIns m k d = (v, m) := by
  induction m with
  | nil => simp [lookupKey] at h
  | cons hd tl ih =>
    obtain ⟨k', v'⟩ := hd
    by_cases hk : k' = k
    · subst hk
      simp [lookupKey] at h
      simp [getIns, h]
    · simp [lookupKey, hk] at h
      simp [getIns, hk, ih h]

theorem lookupKey_pushEdge (l : List (String × List Edge)) (k : String) (e : Edge)
    (x : String) :
    lookupKey (pushEdge l k e) x =
      if k = x then some ((lookupKey l x).getD [] ++ [e]) else lookupKey l x := by
  induction l with
  | nil => simp [pushEdge, lookupKey]
  | cons hd tl ih =>
    obtain ⟨k', es⟩ := hd
    by_cases h : k' = k
    · subst h
      by_cases hx : k' = x <;> simp [pushEdge, lookupKey, hx]
    · by_cases hx : k' = x
      · subst hx
        have : ¬ k = k' := fun hh => h hh.symm
        simp [pushEdge, lookupKey, h, this]
      · simp [pushEdge, lookupKey, h, hx, ih]

theorem lookupKey_append_none {α : Type} {m₁ : List (String × α)} {x : String}
    (m₂ : List (String × α)) (h : lookupKey m₁ x = none) :
    lookupKey (m₁ ++ m₂) x = lookupKey m₂ x := by
  induction m₁ with
  | nil => simp [lookupKey]
  | cons hd tl ih =>
    obtain ⟨k, v⟩ := hd
    by_cases hk : k = x
    · simp [lookupKey, hk] at h
    · simp only [lookupKey, hk, if_false] at h
      simpa [lookupKey, hk] using ih h

theorem lookupKey_append_some {α : Type} {m₁ : List (String × α)} {x : String} {v : α}
    (m₂ : List (String × α)) (h : lookupKey m₁ x = some v) :
    lookupKey (m₁ ++ m₂) x = some v := by
  induction m₁ with
  | nil => simp [lookupKey] at h
  | cons hd tl ih =>
    obtain ⟨k, w⟩ := hd
    by_cases hk : k = x
    · simp only [lookupKey, hk, if_true, Option.some.injEq] at h
      simp [lookupKey, hk, h]
    · simp only [lookupKey, hk, if_false] at h
      simpa [lookupKey, hk] using ih h

theorem lookupKey_isSome_setKey {α : Type} (m : List (String × α)) (k : String)
    (v : α) (x : String) :
    (lookupKey (setKey m k v) x).isSome = (decide (k = x) || (lookupKey m x).isSome) := by
  rw [lookupKey_setKey]
  by_cases h : k = x <;> simp [h]

/-! ## Graph-API lemmas -/

theorem hasAirport_addAirport (g : Graph) (id x : String) :
    (g.addAirport id).hasAirport x = (decide (id = x) || g.hasAirport x) := by
  by_cases hid : g.hasAirport id = true
  · have hg : g.addAirport id = g := by simp [Graph.addAirport, hid]
    rw [hg]
    by_cases hix : id = x
    · subst hix
      simp [hid]
    · simp [hix]
  · have hg : (g.addAirport id).adjList = g.adjList ++ [(id, [])] := by
      simp [Graph.addAirport, hid]
    show (lookupKey (g.addAirport id).adjList x).isSome = _
    rw [hg]
    cases hl : lookupKey g.adjList x with
    | none =>
      rw [lookupKey_append_none _ hl]
      by_cases hix : id = x <;> simp [lookupKey, hix, Graph.hasAirport, hl]
    | some es =>
      rw [lookupKey_append_some _ hl]
      simp [Graph.hasAirport, hl]

theorem hasAirport_addRoute (g : Graph) (a b x : String) (w : ℚ) :
    (g.addRoute a b w).hasAirport x =
      (decide (a = x) || decide (b = x) || g.hasAirport x) := by
  simp only [Graph.addRoute, Graph.hasAirport, lookupKey_pushEdge]
  by_cases hb : b = x <;> by_cases ha : a = x <;> simp [ha, hb]

/-- C3 (claim): a query with a source or target airport that is not in the
graph returns the degenerate `PathResult` (empty path, distance 0); in the
model the function is total, so it cannot abort. Mirrors the guard at
`Dijkstra.cpp` lines 17-21. -/
theorem findShortestPath_unknown_endpoint (g : Graph) (sourceId targetId : String)
    (h : g.hasAirport sourceId = false ∨ g.hasAirport targetId = false) :
    findShortestPath g sourceId targetId = { path := [], totalDistance := 0 } := by
  unfold findShortestPath
  rcases h with h | h <;> simp [h]

theorem findShortestPath_unknown_endpoint_witness :
    ((⟨[]⟩ : Graph).hasAirport "JFK" = false ∨ (⟨[]⟩ : Graph).hasAirport "LAX" = false) ∧
      findShortestPath (⟨[]⟩ : Graph) "JFK" "LAX" = { path := [], totalDistance := 0 } :=
  ⟨Or.inl (by decide),
    findShortestPath_unknown_endpoint (⟨[]⟩ : Graph) "JFK" "LAX" (Or.inl (by decide))⟩

/-- C8 (claim): `addAirport` is idempotent. If the airport exists the graph is
unchanged (including all stored edges); otherwise exactly one entry with an
empty edge list is appended; and calling it twice equals calling it once. -/
theorem addAirport_idempotent (g : Graph) (id : String) :
    (g.hasAirport id = true → g.addAirport id = g) ∧
      (g.hasAirport id = false →
        (g.addAirport id).adjList = g.adjList ++ [(id, [])]) ∧
      (g.addAirport id).addAirport id = g.addAirport id := by
  refine ⟨fun h => by simp [Graph.addAirport, h], fun h => by simp [Graph.addAirport, h], ?_⟩
  set g' := g.addAirport id with hg'
  have h2 : g'.hasAirport id = true := by
    rw [hg', hasAirport_addAirport]
    simp
  simp [Graph.addAirport, h2]

theorem addAirport_idempotent_witness :
    (((⟨[("A", [])]⟩ : Graph).hasAirport "A" = true →
        (⟨[("A", [])]⟩ : Graph).addAirport "A" = ⟨[("A", [])]⟩) ∧
      ((⟨[("A", [])]⟩ : Graph).hasAirport "A" = false →
        ((⟨[("A", [])]⟩ : Graph).addAirport "A").adjList = [("A", [])] ++ [("A", [])]) ∧
      ((⟨[("A", [])]⟩ : Graph).addAirport "A").addAirport "A" =
        (⟨[("A", [])]⟩ : Graph).addAirport "A") ∧
    ((⟨[("A", [])]⟩ : Graph).addAirport "A" = ⟨[("A", [])]⟩) :=
  ⟨addAirport_idempotent ⟨[("A", [])]⟩ "A",
    (addAirport_idempotent ⟨[("A", [])]⟩ "A").1 (by decide)⟩

/-- C9 (claim): `getRoutes` returns the stored edge sequence when the airport
exists and the empty sequence when it is absent; in the model it is a total
function, so absence is never an error. Mirrors `Graph.cpp` lines 9-13. -/
theorem getRoutes_total (g : Graph) (id : String) :
    (∀ es, lookupKey g.adjList id = some es → g.getRoutes id = es) ∧
      (lookupKey g.adjList id = none → g.getRoutes id = []) := by
  constructor
  · intro es h
    simp [Graph.getRoutes, h]
  · intro h
    simp [Graph.getRoutes, h]

theorem getRoutes_total_witness :
    ((⟨[("A", [⟨"B", 3⟩])]⟩ : Graph).getRoutes "A" = [⟨"B", 3⟩]) ∧
      ((⟨[("A", [⟨"B", 3⟩])]⟩ : Graph).getRoutes "C" = []) :=
  ⟨(getRoutes_total ⟨[("A", [⟨"B", 3⟩])]⟩ "A").1 [⟨"B", 3⟩] (by decide),
    (getRoutes_total ⟨[("A", [⟨"B", 3⟩])]⟩ "C").2 (by decide)⟩

/-- C7 (claim): after any sequence of API calls starting from the empty graph,
`hasAirport id` holds exactly when some call mentioned `id` — either an
`addAirport id` call or an `addRoute` call with `id` as an endpoint. -/
theorem hasAirport_iff_mentioned (ops : List Op) (id : String) :
    (buildGraph ops).hasAirport id = true ↔ id ∈ ops.flatMap opIds := by
  suffices h : ∀ g : Graph, (ops.foldl applyOp g).hasAirport id = true ↔
      id ∈ ops.flatMap opIds ∨ g.hasAirport id = true by
    rw [buildGraph, h ⟨[]⟩]
    simp [Graph.hasAirport, lookupKey]
  induction ops with
  | nil => simp [lookupKey]
  | cons op rest ih =>
    intro g
    rw [List.foldl_cons, ih]
    cases op with
    | addAirport a =>
      simp only [applyOp, hasAirport_addAirport, opIds, List.flatMap_cons,
        List.mem_append, Bool.or_eq_true, decide_eq_true_eq, List.mem_singleton]
      constructor
      · rintro (h | h | h)
        · exact Or.inl (Or.inr h)
        · exact Or.inl (Or.inl h.symm)
        · exact Or.inr h
      · rintro ((h | h) | h)
        · exact Or.inr (Or.inl h.symm)
        · exact Or.inl h
        · exact Or.inr (Or.inr h)
    | addRoute a b w =>
      simp only [applyOp, hasAirport_addRoute, opIds, List.flatMap_cons,
        List.mem_append, Bool.or_eq_true, decide_eq_true_eq, List.mem_cons,
        List.mem_singleton, List.not_mem_nil, or_false]
      constructor
      · rintro (h | (h | h) | h)
        · exact Or.inl (Or.inr h)
        · exact Or.inl (Or.inl (Or.inl h.symm))
        · exact Or.inl (Or.inl (Or.inr h.symm))
        · exact Or.inr h
      · rintro (((h | h) | h) | h)
        · exact Or.inr (Or.inl (Or.inl h.symm))
        · exact Or.inr (Or.inl (Or.inr h.symm))
        · exact Or.inl h
        · exact Or.inr (Or.inr h)

/-! ## Initialisation-map lemmas -/

theorem lookupKey_isSome_iff_mem {α : Type} (l : List (String × α)) (x : String) :
    (lookupKey l x).isSome = true ↔ x ∈ l.map Prod.fst := by
  induction l with
  | nil => simp [lookupKey]
  | cons hd tl ih =>
    obtain ⟨k, v⟩ := hd
    by_cases h : k = x
    · subst h
      simp [lookupKey]
    · have h2 : ¬ x = k := fun hh => h hh.symm
      simp [lookupKey, h, h2, ih]

theorem lookupKey_foldl_const {α β : Type} (c : α) (l : List (String × β))
    (m : List (String × α)) (x : String) :
    lookupKey (l.foldl (fun m pr => setKey m pr.1 c) m) x =
      if x ∈ l.map Prod.fst then some c else lookupKey m x := by
  induction l generalizing m with
  | nil => simp
  | cons hd tl ih =>
    rw [List.foldl_cons, ih]
    by_cases hmem : x ∈ tl.map Prod.fst
    · simp [hmem]
    · rw [lookupKey_setKey]
      by_cases hx : hd.1 = x
      · simp [hmem, hx]
      · have h2 : ¬ x = hd.1 := fun hh => hx hh.symm
        simp [hmem, hx, h2]

theorem lookupKey_initDist (g : Graph) (x : String) :
    lookupKey (initDist g) x = if g.hasAirport x = true then some ⊤ else none := by
  rw [initDist, lookupKey_foldl_const]
  by_cases h : g.hasAirport x = true
  · have hm : x ∈ g.adjList.map Prod.fst := (lookupKey_isSome_iff_mem _ _).mp h
    simp [h, hm]
  · have hm : x ∉ g.adjList.map Prod.fst := fun hh =>
      h ((lookupKey_isSome_iff_mem _ _).mpr hh)
    simp [h, hm, lookupKey]

theorem lookupKey_initPrev (g : Graph) (x : String) :
    lookupKey (initPrev g) x = if g.hasAirport x = true then some "" else none := by
  rw [initPrev, lookupKey_foldl_const]
  by_cases h : g.hasAirport x = true
  · have hm : x ∈ g.adjList.map Prod.fst := (lookupKey_isSome_iff_mem _ _).mp h
    simp [h, hm]
  · have hm : x ∉ g.adjList.map Prod.fst := fun hh =>
      h ((lookupKey_isSome_iff_mem _ _).mpr hh)
    simp [h, hm, lookupKey]

/-! ## The self-path query (claim C4) -/

/-- When the priority queue holds exactly the seeded source entry and the
source equals the target, the very first iteration pops it and breaks. -/
theorem dijkstraLoop_self_break (g : Graph) (s : String) (fuel : Nat) (st : LoopState)
    (hpq : st.pq = [⟨s, 0⟩]) :
    dijkstraLoop g s (fuel + 1) st = (⟨[], st.dist, st.prev⟩, true) := by
  simp [dijkstraLoop, hpq, popMin]

/-- Counterexample to C4 as stated: the empty string is a perfectly legal
airport id for the C++ code, but it coincides with the "no predecessor"
sentinel `""` that initialises `previous`, so the reconstruction loop stops
before emitting the source and the self-query for the airport `""` returns an
empty path instead of `[""]`. -/
theorem findShortestPath_self_empty_id_cex :
    ((⟨[]⟩ : Graph).addAirport "").hasAirport "" = true ∧
      findShortestPath ((⟨[]⟩ : Graph).addAirport "") "" "" ≠
        { path := [""], totalDistance := 0 } ∧
      findShortestPath ((⟨[]⟩ : Graph).addAirport "") "" "" =
        { path := [], totalDistance := 0 } := by
  refine ⟨by decide, ?_, by decide⟩
  decide

/-- C4 (amended): the self-path query for an existing airport whose id is not
the empty string returns the single-airport path with distance 0. (For the
airport id `""` the code returns an empty path — see the counterexample.) -/
theorem findShortestPath_self (g : Graph) (s : String)
    (hs : g.hasAirport s = true) (hne : s ≠ "") :
    findShortestPath g s s = { path := [s], totalDistance := 0 } := by
  unfold findShortestPath
  simp only [hs, Bool.not_true, Bool.false_or, Bool.or_self, if_neg,
    Bool.false_eq_true, not_false_iff]
  rw [show edgeCount g + 2 = (edgeCount g + 1) + 1 from rfl,
    dijkstraLoop_self_break g s (edgeCount g + 1) _ rfl]
  rw [show g.adjList.length + 2 = (g.adjList.length + 1) + 1 from rfl]
  rw [show reconstruct (initPrev g) ((g.adjList.length + 1) + 1) s [] =
      reconstruct (initPrev g) (g.adjList.length + 1) "" [s] by
    rw [reconstruct]
    simp [hne, lookupKey_initPrev, hs]]
  rw [show reconstruct (initPrev g) (g.adjList.length + 1) "" [s] = ([s], true) by
    rw [show g.adjList.length + 1 = g.adjList.length + 1 from rfl, reconstruct]
    simp]
  rw [lookupKey_setKey]
  simp

theorem findShortestPath_self_witness :
    ((⟨[("JFK", [])]⟩ : Graph).hasAirport "JFK" = true ∧ "JFK" ≠ "") ∧
      findShortestPath (⟨[("JFK", [])]⟩ : Graph) "JFK" "JFK" =
        { path := ["JFK"], totalDistance := 0 } :=
  ⟨⟨by decide, by decide⟩,
    findShortestPath_self ⟨[("JFK", [])]⟩ "JFK" (by decide) (by decide)⟩

/-! ## The unreachable-target behaviour (claim C2) -/

/-- What the code actually does on a disconnected graph: for two isolated
airports `A` and `B`, the reconstruction loop still pushes the target (its
predecessor entry is the initial `""`), and the recorded distance of the
target is still infinity, so the query returns path `[B]` with total distance
`⊤` — not the empty path with distance 0 that the spec demands. -/
theorem findShortestPath_unreachable_behaviour :
    (((⟨[]⟩ : Graph).addAirport "A").addAirport "B").hasAirport "A" = true ∧
      (((⟨[]⟩ : Graph).addAirport "A").addAirport "B").hasAirport "B" = true ∧
      findShortestPath (((⟨[]⟩ : Graph).addAirport "A").addAirport "B") "A" "B" =
        { path := ["B"], totalDistance := ⊤ } := by
  refine ⟨by decide, by decide, ?_⟩
  decide

/-! ## The concrete scenario of `main.cpp` (claim C5) -/

/-- The sample graph hard-coded in `main.cpp` (lines 18-26). -/
def mainGraph : Graph :=
  ((((⟨[]⟩ : Graph).addAirport "JFK").addAirport "DFW").addAirport "ORD"
    |>.addRoute "JFK" "ORD" 800).addRoute "ORD" "DFW" 1650

/-- C5 (claim): on the `main.cpp` graph, JFK→DFW yields [JFK, ORD, DFW] with
distance 2450, JFK→JFK yields [JFK] with distance 0, and JFK→LAX (unknown
airport) yields the empty path with distance 0. -/
theorem findShortestPath_mainGraph :
    findShortestPath mainGraph "JFK" "DFW" =
        { path := ["JFK", "ORD", "DFW"], totalDistance := ((2450 : ℚ) : WithTop ℚ) } ∧
      findShortestPath mainGraph "JFK" "JFK" =
        { path := ["JFK"], totalDistance := ((0 : ℚ) : WithTop ℚ) } ∧
      findShortestPath mainGraph "JFK" "LAX" =
        { path := [], totalDistance := ((0 : ℚ) : WithTop ℚ) } := by
  refine ⟨?_, ?_, ?_⟩
  · norm_num [findShortestPath, mainGraph, Graph.addAirport, Graph.addRoute,
      Graph.hasAirport, Graph.getRoutes, lookupKey, setKey, getIns, pushEdge, popMin,
      initDist, initPrev, edgeCount, dijkstraLoop, relaxEdges, reconstruct]
    decide
  · norm_num [findShortestPath, mainGraph, Graph.addAirport, Graph.addRoute,
      Graph.hasAirport, Graph.getRoutes, lookupKey, setKey, getIns, pushEdge, popMin,
      initDist, initPrev, edgeCount, dijkstraLoop, relaxEdges, reconstruct]
    decide
  · decide

/-! ## Counterexample to C6 as stated: a route from an airport to itself -/

/-- Counterexample to C6 as stated: `addRoute` does not require its endpoints
to be distinct. For the self-route (`A`, `A`, 1) the only airport is `A`, the
query pops the source, immediately matches the target and breaks, so the
reported distance is 0, not the route weight 1. -/
theorem addRoute_self_loop_cex :
    (0 : ℚ) ≤ 1 ∧
      (findShortestPath ((⟨[]⟩ : Graph).addRoute "A" "A" 1) "A" "A").totalDistance ≠
        ((1 : ℚ) : WithTop ℚ) := by
  refine ⟨by norm_num, ?_⟩
  decide

/-! ## Rank in a settling sequence -/

/-- Index of the first occurrence of `v` in `S` (length of `S` if absent). -/
def rankIn : List String → String → Nat
  | [], _ => 0
  | x :: xs, v => if x = v then 0 else rankIn xs v + 1

theorem rankIn_lt_length {S : List String} {v : String} (h : v ∈ S) :
    rankIn S v < S.length := by
  induction S with
  | nil => cases h
  | cons x xs ih =>
    by_cases hx : x = v
    · simp [rankIn, hx]
    · have hm : v ∈ xs := by
        rcases List.mem_cons.mp h with h1 | h1
        · exact absurd h1.symm hx
        · exact h1
      simpa [rankIn, hx] using ih hm

theorem rankIn_append_of_mem {S : List String} {v : String} (l : List String)
    (h : v ∈ S) : rankIn (S ++ l) v = rankIn S v := by
  induction S with
  | nil => cases h
  | cons x xs ih =>
    by_cases hx : x = v
    · simp [rankIn, hx]
    · have hm : v ∈ xs := by
        rcases List.mem_cons.mp h with h1 | h1
        · exact absurd h1.symm hx
        · exact h1
      simp [rankIn, hx, ih hm]

theorem rankIn_append_self {S : List String} {v : String} (h : v ∉ S) :
    rankIn (S ++ [v]) v = S.length := by
  induction S with
  | nil => simp [rankIn]
  | cons x xs ih =>
    have hx : x ≠ v := fun hh => h (hh ▸ List.mem_cons_self x xs)
    have hv : v ∉ xs := fun hh => h (List.mem_cons_of_mem x hh)
    simp [rankIn, hx, ih hv]

/-! ## Priority-queue lemmas -/

theorem popMin_eq_none {l : List QueueNode} : popMin l = none ↔ l = [] := by
  cases l with
  | nil => simp [popMin]
  | cons x xs =>
    simp only [popMin]
    cases h : popMin xs with
    | none => simp
    | some p =>
      obtain ⟨m, rest⟩ := p
      by_cases hle : x.distance ≤ m.distance <;> simp [hle]

theorem popMin_perm {l : List QueueNode} {m : QueueNode} {rest : List QueueNode}
    (h : popMin l = some (m, rest)) : l.Perm (m :: rest) := by
  induction l generalizing m rest with
  | nil => simp [popMin] at h
  | cons x xs ih =>
    simp only [popMin] at h
    cases hxs : popMin xs with
    | none =>
      rw [hxs] at h
      obtain rfl : xs = [] := popMin_eq_none.mp hxs
      simp only [Option.some.injEq, Prod.mk.injEq] at h
      obtain ⟨rfl, rfl⟩ := h
      exact List.Perm.refl _
    | some p =>
      obtain ⟨m', rest'⟩ := p
      rw [hxs] at h
      by_cases hle : x.distance ≤ m'.distance
      · simp only [hle, if_true, Option.some.injEq, Prod.mk.injEq] at h
        obtain ⟨rfl, rfl⟩ := h
        exact List.Perm.refl _
      · simp only [hle, if_false, Option.some.injEq, Prod.mk.injEq] at h
        obtain ⟨rfl, rfl⟩ := h
        exact ((ih hxs).cons x).trans (List.Perm.swap m' x rest')

theorem popMin_min {l : List QueueNode} {m : QueueNode} {rest : List QueueNode}
    (h : popMin l = some (m, rest)) : ∀ y ∈ l, m.distance ≤ y.distance := by
  induction l generalizing m rest with
  | nil => simp [popMin] at h
  | cons x xs ih =>
    simp only [popMin] at h
    cases hxs : popMin xs with
    | none =>
      rw [hxs] at h
      obtain rfl : xs = [] := popMin_eq_none.mp hxs
      simp only [Option.some.injEq, Prod.mk.injEq] at h
      obtain ⟨rfl, rfl⟩ := h
      intro y hy
      rcases List.mem_cons.mp hy with hy | hy
      · rw [hy]
      · cases hy
    | some p =>
      obtain ⟨m', rest'⟩ := p
      rw [hxs] at h
      by_cases hle : x.distance ≤ m'.distance
      · simp only [hle, if_true, Option.some.injEq, Prod.mk.injEq] at h
        obtain ⟨rfl, rfl⟩ := h
        intro y hy
        rcases List.mem_cons.mp hy with hy | hy
        · rw [hy]
        · exact le_trans hle (ih hxs y hy)
      · simp only [hle, if_false, Option.some.injEq, Prod.mk.injEq] at h
        obtain ⟨rfl, rfl⟩ := h
        intro y hy
        rcases List.mem_cons.mp hy with hy | hy
        · exact le_of_lt (hy ▸ lt_of_not_le hle)
        · exact ih hxs y hy

theorem popMin_mem {l : List QueueNode} {m : QueueNode} {rest : List QueueNode}
    (h : popMin l = some (m, rest)) : m ∈ l :=
  (popMin_perm h).symm.subset (List.mem_cons_self m rest)

/-! ## The distance-map view -/

/-- The tentative distance recorded for `v` (infinity when `v` has no entry,
which for graph nodes never happens after initialisation). -/
def dval (m : List (String × WithTop ℚ)) (v : String) : WithTop ℚ :=
  (lookupKey m v).getD ⊤

theorem dval_setKey (m : List (String × WithTop ℚ)) (k : String) (c : WithTop ℚ)
    (x : String) : dval (setKey m k c) x = if k = x then c else dval m x := by
  rw [dval, lookupKey_setKey]
  by_cases h : k = x <;> simp [h, dval]

/-! ## Walk lemmas -/

theorem lookupKey_mem {α : Type} {l : List (String × α)} {x : String} {v : α}
    (h : lookupKey l x = some v) : (x, v) ∈ l := by
  induction l with
  | nil => simp [lookupKey] at h
  | cons hd tl ih =>
    obtain ⟨k, w⟩ := hd
    by_cases hk : k = x
    · subst hk
      simp only [lookupKey, if_true, Option.some.injEq] at h
      simp [h]
    · simp only [lookupKey, hk, if_false] at h
      exact List.mem_cons_of_mem _ (ih h)

theorem edge_source_node {g : Graph} {v : String} {e : Edge}
    (he : e ∈ g.getRoutes v) : g.hasAirport v = true := by
  rw [Graph.getRoutes] at he
  cases hl : lookupKey g.adjList v with
  | none => rw [hl] at he; cases he
  | some es => simp [Graph.hasAirport, hl]

theorem edge_nonneg {g : Graph} (hnn : NonNeg g) {v : String} {e : Edge}
    (he : e ∈ g.getRoutes v) : 0 ≤ e.distance := by
  rw [Graph.getRoutes] at he
  cases hl : lookupKey g.adjList v with
  | none => rw [hl] at he; cases he
  | some es =>
    rw [hl] at he
    exact hnn (v, es) (lookupKey_mem hl) e he

theorem edge_target_node {g : Graph} (hwf : WF g) {v : String} {e : Edge}
    (he : e ∈ g.getRoutes v) : g.hasAirport e.destination = true := by
  rw [Graph.getRoutes] at he
  cases hl : lookupKey g.adjList v with
  | none => rw [hl] at he; cases he
  | some es =>
    rw [hl] at he
    exact hwf.2 (v, es) (lookupKey_mem hl) e he

theorem walk_cost_nonneg {g : Graph} (hnn : NonNeg g) {u t : String}
    {vs : List String} {c : ℚ} (h : IsWalk g u t vs c) : 0 ≤ c := by
  induction h with
  | nil => exact le_refl 0
  | snoc hw he ih => exact add_nonneg ih (edge_nonneg hnn he)

theorem walk_head {g : Graph} {u t : String} {vs : List String} {c : ℚ}
    (h : IsWalk g u t vs c) : ∃ vs2, vs = u :: vs2 := by
  induction h with
  | nil => exact ⟨[], rfl⟩
  | snoc hw he ih =>
    obtain ⟨vs2, hvs⟩ := ih
    exact ⟨vs2 ++ [_], by rw [hvs]; rfl⟩

theorem concat_inj {α : Type} {l₁ l₂ : List α} {a b : α}
    (h : l₁ ++ [a] = l₂ ++ [b]) : l₁ = l₂ ∧ a = b := by
  have hlen : l₁.length = l₂.length := by
    have h2 := congrArg List.length h
    simpa using h2
  obtain ⟨h1, h2⟩ := List.append_inj h hlen
  exact ⟨h1, by simpa using h2⟩

theorem mem_split {α : Type} {a : α} {l : List α} (h : a ∈ l) :
    ∃ s t, l = s ++ a :: t := by
  induction l with
  | nil => cases h
  | cons b bs ih =>
    rcases List.mem_cons.mp h with h1 | h1
    · exact ⟨[], bs, by simp [h1]⟩
    · obtain ⟨s, t, hst⟩ := ih h1
      exact ⟨b :: s, t, by simp [hst]⟩

theorem not_nodup_decomp {α : Type} {l : List α} (h : ¬ l.Nodup) :
    ∃ p a q r, l = p ++ a :: q ++ a :: r := by
  induction l with
  | nil => exact absurd List.nodup_nil h
  | cons x xs ih =>
    by_cases hx : x ∈ xs
    · obtain ⟨s, t, hst⟩ := mem_split hx
      exact ⟨[], x, s, t, by simp [hst]⟩
    · have hxs : ¬ xs.Nodup := fun hn => h (List.nodup_cons.mpr ⟨hx, hn⟩)
      obtain ⟨p, a, q, r, hpqr⟩ := ih hxs
      exact ⟨x :: p, a, q, r, by simp [hpqr]⟩

theorem isWalk_split {g : Graph} {u t : String} {vs : List String} {c : ℚ}
    (h : IsWalk g u t vs c) :
    ∀ p x q, vs = p ++ x :: q →
      ∃ c₁ c₂, IsWalk g u x (p ++ [x]) c₁ ∧ IsWalk g x t (x :: q) c₂ ∧ c = c₁ + c₂ := by
  induction h with
  | nil =>
    intro p x q hv
    cases p with
    | nil =>
      simp only [List.nil_append, List.cons.injEq] at hv
      obtain ⟨rfl, rfl⟩ := hv
      exact ⟨0, 0, IsWalk.nil, IsWalk.nil, by ring⟩
    | cons ph pt => simp at hv
  | snoc hw he ih =>
    rename_i v2 vs2 c2 w2
    intro p x q hv
    rcases List.eq_nil_or_concat q with rfl | ⟨q2, b, rfl⟩
    · obtain ⟨rfl, rfl⟩ := concat_inj hv
      exact ⟨c2 + w2, 0, IsWalk.snoc hw he, IsWalk.nil, by ring⟩
    · have hv2 : vs2 ++ [v2] = (p ++ x :: q2) ++ [b] := by
        rw [hv]
        simp [List.concat_eq_append]
      obtain ⟨hvs, rfl⟩ := concat_inj hv2
      obtain ⟨c₁, c₂, h1, h2, hc⟩ := ih p x q2 hvs
      refine ⟨c₁, c₂ + w2, h1, ?_, by rw [hc]; ring⟩
      have h3 := IsWalk.snoc h2 he
      simpa using h3

theorem isWalk_join {g : Graph} {x t : String} {r : List String} {c₂ : ℚ}
    (h2 : IsWalk g x t r c₂) :
    ∀ {u : String} {p : List String} {c₁ : ℚ}, IsWalk g u x p c₁ →
      IsWalk g u t (p ++ r.tail) (c₁ + c₂) := by
  induction h2 with
  | nil =>
    intro u p c₁ h1
    simpa using h1
  | snoc hw he ih =>
    intro u p c₁ h1
    obtain ⟨vs2, rfl⟩ := walk_head hw
    have h3 := IsWalk.snoc (ih h1) he
    simpa [add_assoc] using h3

theorem walk_to_path {g : Graph} (hnn : NonNeg g) {u t : String} :
    ∀ n vs c, vs.length ≤ n → IsWalk g u t vs c →
      ∃ vs2 c2, IsWalk g u t vs2 c2 ∧ vs2.Nodup ∧ c2 ≤ c := by
  intro n
  induction n with
  | zero =>
    intro vs c hn h
    obtain ⟨vs2, rfl⟩ := walk_head h
    simp at hn
  | succ n ih =>
    intro vs c hn h
    by_cases hdup : vs.Nodup
    · exact ⟨vs, c, h, hdup, le_refl c⟩
    · obtain ⟨p, a, q, r, rfl⟩ := not_nodup_decomp hdup
      obtain ⟨c₁, c₂, h1, h2, hc⟩ := isWalk_split h (p ++ a :: q) a r (by simp)
      obtain ⟨c₁a, c₁b, h1a, h1b, hc1⟩ := isWalk_split h1 p a (q ++ [a]) (by simp)
      have hj : IsWalk g u t ((p ++ [a]) ++ r) (c₁a + c₂) := by
        simpa using isWalk_join h2 h1a
      have hlen : ((p ++ [a]) ++ r).length ≤ n := by
        simp only [List.length_append, List.length_cons, List.length_nil] at hn ⊢
        omega
      obtain ⟨vs2, d2, hw2, hnd2, hle2⟩ := ih _ _ hlen hj
      refine ⟨vs2, d2, hw2, hnd2, ?_⟩
      have hb : 0 ≤ c₁b := walk_cost_nonneg hnn h1b
      linarith

/-! ## The main loop invariant -/

/-- Bulk of the Dijkstra loop invariant, relative to the ghost settling
sequence `S`: the airports popped with an up-to-date distance, in settling
order. The remaining clause (settled airports have all their outgoing edges
relaxed) is kept separate in `Inv`, because it is temporarily broken for the
airport being processed while `relaxEdges` walks its edge list. -/
structure InvB (g : Graph) (s : String) (S : List String) (st : LoopState) : Prop where
  distKeys : ∀ v, (lookupKey st.dist v).isSome = g.hasAirport v
  prevKeys : ∀ v, (lookupKey st.prev v).isSome = g.hasAirport v
  snodup : S.Nodup
  smem : ∀ u ∈ S, g.hasAirport u = true
  sfin : ∀ u ∈ S, dval st.dist u ≠ ⊤
  smin : ∀ u ∈ S, ∀ vs c, IsWalk g s u vs c → dval st.dist u ≤ (c : WithTop ℚ)
  inQueue : ∀ v, g.hasAirport v = true → v ∉ S → dval st.dist v ≠ ⊤ →
    ∃ q : ℚ, dval st.dist v = (q : WithTop ℚ) ∧ (⟨v, q⟩ : QueueNode) ∈ st.pq
  pqLB : ∀ qn ∈ st.pq, dval st.dist qn.airportId ≤ (qn.distance : WithTop ℚ)
  pqWalk : ∀ qn ∈ st.pq, ∃ vs, IsWalk g s qn.airportId vs qn.distance
  pqNode : ∀ qn ∈ st.pq, g.hasAirport qn.airportId = true
  distWalk : ∀ v, dval st.dist v ≠ ⊤ →
    ∃ vs c, IsWalk g s v vs c ∧ dval st.dist v = (c : WithTop ℚ)
  staleS : ∀ u ∈ S, ∀ qn ∈ st.pq, qn.airportId = u →
    dval st.dist u < (qn.distance : WithTop ℚ)
  pqSep : st.pq.Pairwise (fun a b => a.airportId = b.airportId → a.distance ≠ b.distance)
  prevS : ∀ v u, lookupKey st.prev v = some u → u = "" ∨
    (u ∈ S ∧ (v ∈ S → rankIn S u < rankIn S v))
  dsrc : dval st.dist s ≤ 0

/-- The airport `u` has all the edges of `es` relaxed in `dist`. -/
def srelaxed (g : Graph) (dist : List (String × WithTop ℚ)) (u : String)
    (es : List Edge) : Prop :=
  ∀ e ∈ es, dval dist e.destination ≤ dval dist u + (e.distance : WithTop ℚ)

/-- The full loop invariant. -/
def Inv (g : Graph) (s : String) (S : List String) (st : LoopState) : Prop :=
  InvB g s S st ∧ ∀ u ∈ S, srelaxed g st.dist u (g.getRoutes u)

/-- The loop invariant holds for the state that `findShortestPath` seeds the
main loop with. -/
theorem inv_init (g : Graph) (s : String) (hs : g.hasAirport s = true) :
    Inv g s [] ⟨[⟨s, 0⟩], setKey (initDist g) s 0, initPrev g⟩ := by
  have hdv : ∀ v, dval (setKey (initDist g) s 0) v =
      if s = v then (0 : WithTop ℚ) else ⊤ := by
    intro v
    rw [dval, lookupKey_setKey]
    by_cases h : s = v
    · simp [h]
    · simp only [h, if_false]
      rw [lookupKey_initDist]
      by_cases h2 : g.hasAirport v = true <;> simp [h2]
  refine ⟨⟨?_, ?_, List.nodup_nil, ?_, ?_, ?_, ?_, ?_, ?_, ?_, ?_, ?_, ?_, ?_, ?_⟩, ?_⟩
  · intro v
    rw [lookupKey_setKey]
    by_cases h : s = v
    · subst h
      simp [hs]
    · simp only [h, if_false]
      rw [lookupKey_initDist]
      by_cases h2 : g.hasAirport v = true <;> simp [h2]
  · intro v
    rw [lookupKey_initPrev]
    by_cases h2 : g.hasAirport v = true <;> simp [h2]
  · intro u hu
    cases hu
  · intro u hu
    cases hu
  · intro u hu
    cases hu
  · intro v hv _ hfin
    rw [hdv v] at hfin
    by_cases h : s = v
    · subst h
      refine ⟨0, ?_, ?_⟩
      · rw [hdv s]
        simp
      · simp
    · simp [h] at hfin
  · intro qn hqn
    rcases List.mem_singleton.mp hqn with rfl
    rw [hdv s]
    simp
  · intro qn hqn
    rcases List.mem_singleton.mp hqn with rfl
    exact ⟨[s], IsWalk.nil⟩
  · intro qn hqn
    rcases List.mem_singleton.mp hqn with rfl
    exact hs
  · intro v hfin
    rw [hdv v] at hfin
    by_cases h : s = v
    · subst h
      refine ⟨[s], 0, IsWalk.nil, ?_⟩
      rw [hdv s]
      simp
    · simp [h] at hfin
  · intro u hu
    cases hu
  · simp
  · intro v u hvu
    rw [lookupKey_initPrev] at hvu
    by_cases h2 : g.hasAirport v = true
    · simp only [h2, if_true, Option.some.injEq] at hvu
      exact Or.inl hvu.symm
    · simp [h2] at hvu
  · rw [hdv s]
    simp
  · intro u hu
    cases hu

/-- The key argument of Dijkstra's correctness: when a queue entry of minimal
distance `d` is popped, every walk from the source to any airport either
already costs at least `d`, or ends in a settled airport whose recorded
distance is below the walk's cost. -/
theorem pop_lower_bound {g : Graph} {s : String} {S : List String} {st : LoopState}
    (hwf : WF g) (hnn : NonNeg g) (hs : g.hasAirport s = true)
    (hb : InvB g s S st)
    (hrx : ∀ u ∈ S, srelaxed g st.dist u (g.getRoutes u)) {d : ℚ}
    (hmin : ∀ y ∈ st.pq, d ≤ y.distance) :
    ∀ {x : String} {vs : List String} {c : ℚ}, IsWalk g s x vs c →
      d ≤ c ∨ (x ∈ S ∧ dval st.dist x ≤ (c : WithTop ℚ)) := by
  intro x vs c h
  induction h with
  | nil =>
    by_cases hsS : s ∈ S
    · right
      refine ⟨hsS, ?_⟩
      simpa using hb.dsrc
    · left
      have hfin : dval st.dist s ≠ ⊤ := by
        intro htop
        have h2 := hb.dsrc
        rw [htop] at h2
        simp at h2
      obtain ⟨q, hq, hmem⟩ := hb.inQueue s hs hsS hfin
      have hq0 : (q : WithTop ℚ) ≤ ((0 : ℚ) : WithTop ℚ) := by
        rw [← hq]
        simpa using hb.dsrc
      have hq1 : q ≤ 0 := by exact_mod_cast hq0
      have hq2 := hmin _ hmem
      linarith
  | @snoc v2 t2 vs2 c2 w2 hw he ih =>
    have hwpos : 0 ≤ w2 := edge_nonneg hnn he
    rcases ih with ih | ⟨hvS, hvle⟩
    · left
      linarith
    · have htnode : g.hasAirport t2 = true := edge_target_node hwf he
      have ht2 : dval st.dist t2 ≤ ((c2 + w2 : ℚ) : WithTop ℚ) := by
        have h4 := hrx v2 hvS ⟨t2, w2⟩ he
        have h5 : dval st.dist v2 + ((w2 : ℚ) : WithTop ℚ) ≤
            ((c2 : ℚ) : WithTop ℚ) + ((w2 : ℚ) : WithTop ℚ) :=
          add_le_add_right hvle _
        have h6 : ((c2 : ℚ) : WithTop ℚ) + ((w2 : ℚ) : WithTop ℚ) =
            ((c2 + w2 : ℚ) : WithTop ℚ) := by
          push_cast
          ring
        exact le_trans h4 (h6 ▸ h5)
      by_cases htS : t2 ∈ S
      · exact Or.inr ⟨htS, ht2⟩
      · left
        have hfin : dval st.dist t2 ≠ ⊤ := by
          intro htop
          rw [htop] at ht2
          simp at ht2
        obtain ⟨q, hq, hmem⟩ := hb.inQueue t2 htnode htS hfin
        have hq0 : (q : WithTop ℚ) ≤ ((c2 + w2 : ℚ) : WithTop ℚ) := hq ▸ ht2
        have hq1 : q ≤ c2 + w2 := by exact_mod_cast hq0
        have hq2 := hmin _ hmem
        linarith

theorem getIns_dval {dist : List (String × WithTop ℚ)} {x : String}
    (h : (lookupKey dist x).isSome = true) :
    getIns dist x 0 = (dval dist x, dist) := by
  obtain ⟨dv, hdv⟩ := Option.isSome_iff_exists.mp h
  rw [getIns_of_lookup_some 0 hdv, dval, hdv]
  rfl

/-- Processing the edge list of the airport being settled preserves the loop
invariant; on exit the settled airport has every processed edge relaxed, and
the queue has grown by at most one entry per edge. -/
theorem relaxEdges_master (g : Graph) (s cur : String) (curd : ℚ) (S2 : List String)
    (hwf : WF g) (hnn : NonNeg g) (hcur : cur ∈ S2) :
    ∀ es dist prev pq,
      (∀ e ∈ es, e ∈ g.getRoutes cur) →
      InvB g s S2 ⟨pq, dist, prev⟩ →
      dval dist cur = ((curd : ℚ) : WithTop ℚ) →
      (∀ u ∈ S2, ∀ e ∈ g.getRoutes u, (u = cur → e ∉ es) →
        dval dist e.destination ≤ dval dist u + (e.distance : WithTop ℚ)) →
      InvB g s S2 ⟨(relaxEdges curd cur es dist prev pq).2.2,
          (relaxEdges curd cur es dist prev pq).1,
          (relaxEdges curd cur es dist prev pq).2.1⟩ ∧
        (∀ u ∈ S2, srelaxed g (relaxEdges curd cur es dist prev pq).1 u (g.getRoutes u)) ∧
        (relaxEdges curd cur es dist prev pq).2.2.length ≤ pq.length + es.length ∧
        dval (relaxEdges curd cur es dist prev pq).1 cur = ((curd : ℚ) : WithTop ℚ) := by
  intro es
  induction es with
  | nil =>
    intro dist prev pq hsub hb hcurd hdone
    refine ⟨hb, ?_, by simp [relaxEdges], hcurd⟩
    intro u hu e he
    exact hdone u hu e he (fun _ => List.not_mem_nil e)
  | cons e0 es ih =>
    intro dist prev pq hsub hb hcurd hdone
    obtain ⟨dest, w⟩ := e0
    have hedge : (⟨dest, w⟩ : Edge) ∈ g.getRoutes cur := hsub _ (List.mem_cons_self _ _)
    have htgt : g.hasAirport dest = true := edge_target_node hwf hedge
    have hw0 : 0 ≤ w := edge_nonneg hnn hedge
    have hkey : (lookupKey dist dest).isSome = true := by rw [hb.distKeys]; exact htgt
    have hgi : getIns dist dest 0 = (dval dist dest, dist) := getIns_dval hkey
    have hwalkcur : ∃ vsc, IsWalk g s cur vsc curd := by
      obtain ⟨vs2, c2, hwk, hdc⟩ := hb.distWalk cur (by rw [hcurd]; exact WithTop.coe_ne_top)
      have hc2 : c2 = curd := by
        rw [hcurd] at hdc
        exact_mod_cast hdc.symm
      exact ⟨vs2, hc2 ▸ hwk⟩
    obtain ⟨vsc, hwkcur⟩ := hwalkcur
    have hcurd0 : 0 ≤ curd := walk_cost_nonneg hnn hwkcur
    have hwalkdest : IsWalk g s dest (vsc ++ [dest]) (curd + w) := IsWalk.snoc hwkcur hedge
    by_cases hlt : ((curd + w : ℚ) : WithTop ℚ) < dval dist dest
    · -- the update branch of the relaxation
      have hdestS2 : dest ∉ S2 := by
        intro hin
        have h2 := hb.smin dest hin _ _ hwalkdest
        exact absurd (lt_of_lt_of_le hlt h2) (lt_irrefl _)
      have hdnecur : dest ≠ cur := fun hh => hdestS2 (hh ▸ hcur)
      set dist1 := setKey dist dest ((curd + w : ℚ) : WithTop ℚ) with hdist1
      set prev1 := setKey prev dest cur with hprev1
      set pq1 := pq ++ [⟨dest, curd + w⟩] with hpq1
      have hred : relaxEdges curd cur ((⟨dest, w⟩ : Edge) :: es) dist prev pq =
          relaxEdges curd cur es dist1 prev1 pq1 := by
        simp only [relaxEdges, hgi]
        rw [if_pos hlt]
      have hdv1 : ∀ v, dval dist1 v =
          if dest = v then ((curd + w : ℚ) : WithTop ℚ) else dval dist v := by
        intro v
        rw [hdist1, dval_setKey]
      have hdv1le : ∀ v, dval dist1 v ≤ dval dist v := by
        intro v
        rw [hdv1]
        by_cases hv : dest = v
        · subst hv
          simp only [if_pos rfl]
          exact le_of_lt hlt
        · simp [hv]
      have hdv1S : ∀ u, u ≠ dest → dval dist1 u = dval dist u := by
        intro u hu
        rw [hdv1]
        rw [if_neg (fun hh => hu hh.symm)]
      have hsne : s ≠ dest := by
        intro hh
        have h2 : dval dist dest ≤ ((0 : ℚ) : WithTop ℚ) := by
          rw [← hh]
          simpa using hb.dsrc
        have h3 := lt_of_lt_of_le hlt h2
        have h4 : curd + w < 0 := by exact_mod_cast h3
        linarith
      have hb1 : InvB g s S2 ⟨pq1, dist1, prev1⟩ := by
        refine ⟨?_, ?_, hb.snodup, hb.smem, ?_, ?_, ?_, ?_, ?_, ?_, ?_, ?_, ?_, ?_, ?_⟩
        · intro v
          rw [hdist1, lookupKey_isSome_setKey]
          by_cases hv : dest = v
          · subst hv
            simp [htgt]
          · simp [hv, hb.distKeys v]
        · intro v
          rw [hprev1, lookupKey_isSome_setKey]
          by_cases hv : dest = v
          · subst hv
            simp [htgt]
          · simp [hv, hb.prevKeys v]
        · intro u hu
          rw [hdv1S u (fun hh => hdestS2 (hh ▸ hu))]
          exact hb.sfin u hu
        · intro u hu vs2 c2 hwk
          rw [hdv1S u (fun hh => hdestS2 (hh ▸ hu))]
          exact hb.smin u hu vs2 c2 hwk
        · intro v hv hvS2 hfin
          by_cases hvd : v = dest
          · subst hvd
            refine ⟨curd + w, ?_, ?_⟩
            · rw [hdv1]
              simp
            · rw [hpq1]
              simp
          · rw [hdv1S v hvd] at hfin ⊢
            obtain ⟨q, hq, hmem⟩ := hb.inQueue v hv hvS2 hfin
            exact ⟨q, hq, by rw [hpq1]; exact List.mem_append_left _ hmem⟩
        · intro qn hqn
          rw [hpq1] at hqn
          rcases List.mem_append.mp hqn with hqn | hqn
          · exact le_trans (hdv1le qn.airportId) (hb.pqLB qn hqn)
          · rcases List.mem_singleton.mp hqn with rfl
            rw [hdv1]
            simp
        · intro qn hqn
          rw [hpq1] at hqn
          rcases List.mem_append.mp hqn with hqn | hqn
          · exact hb.pqWalk qn hqn
          · rcases List.mem_singleton.mp hqn with rfl
            exact ⟨vsc ++ [dest], hwalkdest⟩
        · intro qn hqn
          rw [hpq1] at hqn
          rcases List.mem_append.mp hqn with hqn | hqn
          · exact hb.pqNode qn hqn
          · rcases List.mem_singleton.mp hqn with rfl
            exact htgt
        · intro v hfin
          by_cases hvd : dest = v
          · subst hvd
            refine ⟨vsc ++ [dest], curd + w, hwalkdest, ?_⟩
            rw [hdv1]
            simp
          · rw [hdv1S v (fun hh => hvd hh.symm)] at hfin ⊢
            exact hb.distWalk v hfin
        · intro u hu qn hqn hid
          rw [hpq1] at hqn
          rw [hdv1S u (fun hh => hdestS2 (hh ▸ hu))]
          rcases List.mem_append.mp hqn with hqn | hqn
          · exact hb.staleS u hu qn hqn hid
          · rcases List.mem_singleton.mp hqn with rfl
            have hdu : dest = u := hid
            subst hdu
            exact absurd hu hdestS2
        · rw [hpq1]
          rw [List.pairwise_append]
          refine ⟨hb.pqSep, List.pairwise_singleton _ _, ?_⟩
          intro a ha b hbm
          rcases List.mem_singleton.mp hbm with rfl
          intro hab
          have h2 := hb.pqLB a ha
          rw [hab] at h2
          have h3 := lt_of_lt_of_le hlt h2
          have h4 : curd + w < a.distance := by exact_mod_cast h3
          exact ne_of_gt h4
        · intro v u hvu
          rw [hprev1, lookupKey_setKey] at hvu
          by_cases hvd : dest = v
          · simp only [hvd, if_true, Option.some.injEq] at hvu
            subst hvu
            exact Or.inr ⟨hcur, fun hv => absurd (hvd ▸ hv) hdestS2⟩
          · simp only [hvd, if_false] at hvu
            exact hb.prevS v u hvu
        · rw [hdv1S s hsne]
          exact hb.dsrc
      have hcurd1 : dval dist1 cur = ((curd : ℚ) : WithTop ℚ) := by
        rw [hdv1S cur (fun hh => hdnecur hh.symm)]
        exact hcurd
      have hdone1 : ∀ u ∈ S2, ∀ e ∈ g.getRoutes u, (u = cur → e ∉ es) →
          dval dist1 e.destination ≤ dval dist1 u + (e.distance : WithTop ℚ) := by
        intro u hu e2 he2 hcond
        have huS : u ≠ dest := fun hh => hdestS2 (hh ▸ hu)
        rw [hdv1S u huS]
        by_cases hcase : u = cur ∧ e2 = (⟨dest, w⟩ : Edge)
        · obtain ⟨rfl, rfl⟩ := hcase
          rw [hdv1]
          simp [hcurd, WithTop.coe_add]
        · have hnotin : u = cur → e2 ∉ (⟨dest, w⟩ : Edge) :: es := by
            intro hucur hmem2
            rcases List.mem_cons.mp hmem2 with hh | hh
            · exact hcase ⟨hucur, hh⟩
            · exact hcond hucur hh
          have h2 := hdone u hu e2 he2 hnotin
          exact le_trans (hdv1le e2.destination) h2
      have hres := ih dist1 prev1 pq1 (fun e2 he2 => hsub e2 (List.mem_cons_of_mem _ he2))
        hb1 hcurd1 hdone1
      rw [hred]
      refine ⟨hres.1, hres.2.1, ?_, hres.2.2.2⟩
      have h2 := hres.2.2.1
      have hlen1 : pq1.length = pq.length + 1 := by
        rw [hpq1]
        simp
      simp only [List.length_cons]
      omega
    · -- the no-update branch
      have hred : relaxEdges curd cur ((⟨dest, w⟩ : Edge) :: es) dist prev pq =
          relaxEdges curd cur es dist prev pq := by
        simp only [relaxEdges, hgi]
        rw [if_neg hlt]
      have hdone1 : ∀ u ∈ S2, ∀ e ∈ g.getRoutes u, (u = cur → e ∉ es) →
          dval dist e.destination ≤ dval dist u + (e.distance : WithTop ℚ) := by
        intro u hu e2 he2 hcond
        by_cases hcase : u = cur ∧ e2 = (⟨dest, w⟩ : Edge)
        · obtain ⟨rfl, rfl⟩ := hcase
          have h2 : dval dist dest ≤ ((curd + w : ℚ) : WithTop ℚ) := not_lt.mp hlt
          rw [hcurd]
          rw [show ((curd : ℚ) : WithTop ℚ) + ((w : ℚ) : WithTop ℚ) =
            ((curd + w : ℚ) : WithTop ℚ) by push_cast; ring]
          exact h2
        · have hnotin : u = cur → e2 ∉ (⟨dest, w⟩ : Edge) :: es := by
            intro hucur hmem2
            rcases List.mem_cons.mp hmem2 with hh | hh
            · exact hcase ⟨hucur, hh⟩
            · exact hcond hucur hh
          exact hdone u hu e2 he2 hnotin
      have hres := ih dist prev pq (fun e2 he2 => hsub e2 (List.mem_cons_of_mem _ he2))
        hb hcurd hdone1
      rw [hred]
      refine ⟨hres.1, hres.2.1, ?_, hres.2.2.2⟩
      have h2 := hres.2.2.1
      simp only [List.length_cons] at h2 ⊢
      omega

theorem pqSep_perm {l1 l2 : List QueueNode} (hp : l1.Perm l2)
    (h : l1.Pairwise (fun a b => a.airportId = b.airportId → a.distance ≠ b.distance)) :
    l2.Pairwise (fun a b => a.airportId = b.airportId → a.distance ≠ b.distance) := by
  refine (List.Perm.pairwise_iff ?_ hp).mp h
  intro a b hab h2
  exact (hab h2.symm).symm

/-- Popping a stale entry (recorded distance already better) just shrinks the
queue; the invariant is preserved with the same settling sequence. -/
theorem stale_step {g : Graph} {s : String} {S : List String} {st : LoopState}
    (hinv : Inv g s S st) {u : String} {d : ℚ} {rest : List QueueNode}
    (hpop : popMin st.pq = some (⟨u, d⟩, rest))
    (hst : dval st.dist u < ((d : ℚ) : WithTop ℚ)) :
    Inv g s S ⟨rest, st.dist, st.prev⟩ := by
  obtain ⟨hb, hrx⟩ := hinv
  have hperm := popMin_perm hpop
  have hsub : ∀ y ∈ rest, y ∈ st.pq := fun y hy =>
    hperm.symm.subset (List.mem_cons_of_mem _ hy)
  refine ⟨⟨hb.distKeys, hb.prevKeys, hb.snodup, hb.smem, hb.sfin, hb.smin, ?_,
    fun qn hqn => hb.pqLB qn (hsub qn hqn),
    fun qn hqn => hb.pqWalk qn (hsub qn hqn),
    fun qn hqn => hb.pqNode qn (hsub qn hqn), hb.distWalk,
    fun u2 hu2 qn hqn hid => hb.staleS u2 hu2 qn (hsub qn hqn) hid,
    ?_, hb.prevS, hb.dsrc⟩, hrx⟩
  · intro v hv hvS hfin
    obtain ⟨q, hq, hmem⟩ := hb.inQueue v hv hvS hfin
    have hmem2 := hperm.subset hmem
    rcases List.mem_cons.mp hmem2 with heq | hmem3
    · exfalso
      have hvu : v = u := congrArg QueueNode.airportId heq
      have hqd : q = d := congrArg QueueNode.distance heq
      subst hvu
      rw [hq, hqd] at hst
      exact absurd hst (lt_irrefl _)
    · exact ⟨q, hq, hmem3⟩
  · exact (List.pairwise_cons.mp (pqSep_perm hperm hb.pqSep)).2

/-- Popping an up-to-date entry settles its airport: the popped distance is
the true shortest distance, and the invariant (minus the relaxations that the
body is about to perform) transfers to the extended settling sequence. -/
theorem settle_step {g : Graph} {s : String} {S : List String} {st : LoopState}
    (hwf : WF g) (hnn : NonNeg g) (hs : g.hasAirport s = true)
    (hinv : Inv g s S st) {u : String} {d : ℚ} {rest : List QueueNode}
    (hpop : popMin st.pq = some (⟨u, d⟩, rest))
    (hns : ¬ dval st.dist u < ((d : ℚ) : WithTop ℚ)) :
    u ∉ S ∧ g.hasAirport u = true ∧ dval st.dist u = ((d : ℚ) : WithTop ℚ) ∧
      InvB g s (S ++ [u]) ⟨rest, st.dist, st.prev⟩ ∧
      (∀ u2 ∈ S ++ [u], ∀ e ∈ g.getRoutes u2, (u2 = u → e ∉ g.getRoutes u) →
        dval st.dist e.destination ≤ dval st.dist u2 + (e.distance : WithTop ℚ)) := by
  obtain ⟨hb, hrx⟩ := hinv
  have hperm := popMin_perm hpop
  have hmin := popMin_min hpop
  have hmem := popMin_mem hpop
  have hsub : ∀ y ∈ rest, y ∈ st.pq := fun y hy =>
    hperm.symm.subset (List.mem_cons_of_mem _ hy)
  have hnode : g.hasAirport u = true := hb.pqNode _ hmem
  have hDu : dval st.dist u = ((d : ℚ) : WithTop ℚ) :=
    le_antisymm (hb.pqLB _ hmem) (not_lt.mp hns)
  have hunotS : u ∉ S := by
    intro hu
    exact absurd (hb.staleS u hu _ hmem rfl) hns
  have hsminu : ∀ vs c, IsWalk g s u vs c → dval st.dist u ≤ ((c : ℚ) : WithTop ℚ) := by
    intro vs c hwk
    rcases pop_lower_bound hwf hnn hs hb hrx hmin hwk with hd | ⟨huS, _⟩
    · rw [hDu]
      exact_mod_cast hd
    · exact absurd huS hunotS
  have hsep2 := pqSep_perm hperm hb.pqSep
  refine ⟨hunotS, hnode, hDu, ⟨hb.distKeys, hb.prevKeys, ?_, ?_, ?_, ?_, ?_,
    fun qn hqn => hb.pqLB qn (hsub qn hqn),
    fun qn hqn => hb.pqWalk qn (hsub qn hqn),
    fun qn hqn => hb.pqNode qn (hsub qn hqn), hb.distWalk, ?_, ?_, ?_, hb.dsrc⟩, ?_⟩
  · rw [List.nodup_append]
    refine ⟨hb.snodup, List.nodup_singleton u, ?_⟩
    intro a ha hau
    rcases List.mem_singleton.mp hau with rfl
    exact hunotS ha
  · intro u2 hu2
    rcases List.mem_append.mp hu2 with hu2 | hu2
    · exact hb.smem u2 hu2
    · rcases List.mem_singleton.mp hu2 with rfl
      exact hnode
  · intro u2 hu2
    rcases List.mem_append.mp hu2 with hu2 | hu2
    · exact hb.sfin u2 hu2
    · rcases List.mem_singleton.mp hu2 with rfl
      rw [hDu]
      exact WithTop.coe_ne_top
  · intro u2 hu2 vs c hwk
    rcases List.mem_append.mp hu2 with hu2 | hu2
    · exact hb.smin u2 hu2 vs c hwk
    · rcases List.mem_singleton.mp hu2 with rfl
      exact hsminu vs c hwk
  · intro v hv hvS hfin
    have hvS2 : v ∉ S := fun hh => hvS (List.mem_append_left _ hh)
    have hvu : v ≠ u := fun hh =>
      hvS (by rw [hh]; exact List.mem_append_right _ (List.mem_singleton_self u))
    obtain ⟨q, hq, hmemq⟩ := hb.inQueue v hv hvS2 hfin
    have hmem2 := hperm.subset hmemq
    rcases List.mem_cons.mp hmem2 with heq | hmem3
    · exact absurd (congrArg QueueNode.airportId heq) hvu
    · exact ⟨q, hq, hmem3⟩
  · intro u2 hu2 qn hqn hid
    rcases List.mem_append.mp hu2 with hu2 | hu2
    · exact hb.staleS u2 hu2 qn (hsub qn hqn) hid
    · rcases List.mem_singleton.mp hu2 with rfl
      have hR := (List.pairwise_cons.mp hsep2).1 qn hqn
      have hne : d ≠ qn.distance := hR hid.symm
      have hle : dval st.dist u2 ≤ ((qn.distance : ℚ) : WithTop ℚ) := by
        have h2 := hb.pqLB qn (hsub qn hqn)
        rw [hid] at h2
        exact h2
      rw [hDu] at hle ⊢
      have hle2 : d ≤ qn.distance := by exact_mod_cast hle
      exact_mod_cast lt_of_le_of_ne hle2 hne
  · exact (List.pairwise_cons.mp hsep2).2
  · intro v u2 hvu2
    rcases hb.prevS v u2 hvu2 with h1 | ⟨h1, h2⟩
    · exact Or.inl h1
    · refine Or.inr ⟨List.mem_append_left _ h1, ?_⟩
      intro hvS2
      rcases List.mem_append.mp hvS2 with hv | hv
      · rw [rankIn_append_of_mem _ h1, rankIn_append_of_mem _ hv]
        exact h2 hv
      · rcases List.mem_singleton.mp hv with rfl
        rw [rankIn_append_of_mem _ h1, rankIn_append_self hunotS]
        exact rankIn_lt_length h1
  · intro u2 hu2 e he hcond
    rcases List.mem_append.mp hu2 with hu2 | hu2
    · exact hrx u2 hu2 e he
    · rcases List.mem_singleton.mp hu2 with rfl
      exact absurd he (hcond rfl)

/-! ## The termination measure -/

/-- Total length of the edge lists of the airports not yet settled. -/
def remESum (l : List (String × List Edge)) (S : List String) : Nat :=
  ((l.filter fun pr => decide (pr.1 ∉ S)).map fun pr => pr.2.length).sum

theorem remESum_nil (l : List (String × List Edge)) :
    remESum l [] = (l.map fun pr => pr.2.length).sum := by
  rw [remESum]
  congr 1
  congr 1
  apply List.filter_eq_self.mpr
  intro a _
  simp

theorem remESum_cons_kept {k : String} {es : List Edge} {tl : List (String × List Edge)}
    {S : List String} (h : k ∉ S) :
    remESum ((k, es) :: tl) S = es.length + remESum tl S := by
  rw [remESum, remESum, List.filter_cons]
  simp [h]

theorem remESum_cons_dropped {k : String} {es : List Edge}
    {tl : List (String × List Edge)} {S : List String} (h : k ∈ S) :
    remESum ((k, es) :: tl) S = remESum tl S := by
  rw [remESum, remESum, List.filter_cons]
  simp [h]

theorem remESum_settle {l : List (String × List Edge)} {u : String} {es : List Edge}
    (hnd : (l.map Prod.fst).Nodup) (hlk : lookupKey l u = some es) {S : List String}
    (hu : u ∉ S) : remESum l (S ++ [u]) + es.length = remESum l S := by
  induction l with
  | nil => simp [lookupKey] at hlk
  | cons hd tl ih =>
    obtain ⟨k, es0⟩ := hd
    simp only [List.map_cons, List.nodup_cons] at hnd
    by_cases hk : k = u
    · subst hk
      have hes : es0 = es := by
        simp [lookupKey] at hlk
        exact hlk
      subst hes
      have hfil : tl.filter (fun pr => decide (pr.1 ∉ S ++ [k])) =
          tl.filter (fun pr => decide (pr.1 ∉ S)) := by
        apply List.filter_congr
        intro pr hpr
        have hprk : pr.1 ≠ k := by
          intro hh
          exact hnd.1 (hh ▸ List.mem_map_of_mem Prod.fst hpr)
        simp only [decide_eq_decide, List.mem_append, List.mem_singleton]
        constructor
        · intro hh h2
          exact hh (Or.inl h2)
        · intro hh h2
          rcases h2 with h2 | h2
          · exact hh h2
          · exact hprk h2
      rw [remESum_cons_dropped (by simp), remESum_cons_kept hu]
      have heq : remESum tl (S ++ [k]) = remESum tl S := by
        rw [remESum, remESum, hfil]
      omega
    · simp only [lookupKey, hk, if_false] at hlk
      have ihr := ih hnd.2 hlk
      by_cases hkS : k ∈ S
      · rw [remESum_cons_dropped hkS, remESum_cons_dropped (List.mem_append_left _ hkS)]
        exact ihr
      · have hkS2 : k ∉ S ++ [u] := by
          simp only [List.mem_append, List.mem_singleton]
          rintro (h2 | h2)
          · exact hkS h2
          · exact hk h2
        rw [remESum_cons_kept hkS, remESum_cons_kept hkS2]
        omega

/-- With an empty queue, every airport reachable from the source by a walk is
settled. -/
theorem empty_queue_settled {g : Graph} {s : String} {S : List String} {st : LoopState}
    (hwf : WF g) (hs : g.hasAirport s = true) (hinv : Inv g s S st)
    (hpq : st.pq = []) :
    ∀ {x : String} {vs : List String} {c : ℚ}, IsWalk g s x vs c → x ∈ S := by
  obtain ⟨hb, hrx⟩ := hinv
  have hsettled : ∀ v, g.hasAirport v = true → dval st.dist v ≠ ⊤ → v ∈ S := by
    intro v hv hfin
    by_contra hvS
    obtain ⟨q, _, hmem⟩ := hb.inQueue v hv hvS hfin
    rw [hpq] at hmem
    cases hmem
  intro x vs c h
  induction h with
  | nil =>
    apply hsettled s hs
    intro htop
    have h2 := hb.dsrc
    rw [htop] at h2
    simp at h2
  | @snoc v2 t2 vs2 c2 w2 hw he ih =>
    have hv2S : v2 ∈ S := ih
    have ht2 : g.hasAirport t2 = true := edge_target_node hwf he
    apply hsettled t2 ht2
    have h2 := hrx v2 hv2S _ he
    intro htop
    rw [htop, top_le_iff] at h2
    obtain ⟨qv, hqv⟩ := Option.ne_none_iff_exists.mp (hb.sfin v2 hv2S)
    rw [← hqv] at h2
    exact (WithTop.add_ne_top.mpr ⟨WithTop.coe_ne_top, WithTop.coe_ne_top⟩) h2

/-- Facts carried out of the main loop: each airport still has its entry in
the distance and predecessor maps, the settling sequence orders predecessor
links for reconstruction, and the target's recorded distance is a lower and
upper bound through walks. -/
structure FinalS (g : Graph) (s t : String) (S2 : List String) (st2 : LoopState) : Prop where
  distKeys : ∀ v, (lookupKey st2.dist v).isSome = g.hasAirport v
  prevKeys : ∀ v, (lookupKey st2.prev v).isSome = g.hasAirport v
  snodup : S2.Nodup
  smem : ∀ u ∈ S2, g.hasAirport u = true
  prevS : ∀ v u, lookupKey st2.prev v = some u → u = "" ∨
    (u ∈ S2 ∧ (v ∈ S2 → rankIn S2 u < rankIn S2 v))
  tmin : ∀ vs c, IsWalk g s t vs c → dval st2.dist t ≤ (c : WithTop ℚ)
  tfin : (∃ vs c, IsWalk g s t vs c) → dval st2.dist t ≠ ⊤
  twalk : dval st2.dist t ≠ ⊤ →
    ∃ vs c, IsWalk g s t vs c ∧ dval st2.dist t = (c : WithTop ℚ)

/-- Master theorem for the main loop: started in an invariant state with fuel
above the measure, the loop reaches its own exit condition and its final state
determines the target's shortest distance. -/
theorem dijkstraLoop_master (g : Graph) (s t : String)
    (hwf : WF g) (hnn : NonNeg g) (hs : g.hasAirport s = true) :
    ∀ fuel S st, Inv g s S st → st.pq.length + remESum g.adjList S < fuel →
      ∃ S2 st2, dijkstraLoop g t fuel st = (st2, true) ∧ FinalS g s t S2 st2 := by
  intro fuel
  induction fuel with
  | zero =>
    intro S st _ hm
    omega
  | succ fuel ih =>
    intro S st hinv hm
    cases hpop : popMin st.pq with
    | none =>
      have hpq : st.pq = [] := popMin_eq_none.mp hpop
      refine ⟨S, st, by simp [dijkstraLoop, hpop], ?_⟩
      obtain ⟨hb, hrx⟩ := hinv
      refine ⟨hb.distKeys, hb.prevKeys, hb.snodup, hb.smem, hb.prevS, ?_, ?_, hb.distWalk t⟩
      · intro vs c hwk
        exact hb.smin t (empty_queue_settled hwf hs ⟨hb, hrx⟩ hpq hwk) vs c hwk
      · rintro ⟨vs, c, hwk⟩
        exact hb.sfin t (empty_queue_settled hwf hs ⟨hb, hrx⟩ hpq hwk)
    | some pr =>
      obtain ⟨⟨u, d⟩, pqRest⟩ := pr
      have hperm := popMin_perm hpop
      have hlenpq : st.pq.length = pqRest.length + 1 := by
        have h2 := hperm.length_eq
        simpa using h2
      have hnodeu : g.hasAirport u = true := hinv.1.pqNode _ (popMin_mem hpop)
      have hkeyu : (lookupKey st.dist u).isSome = true := by
        rw [hinv.1.distKeys]
        exact hnodeu
      have hgi : getIns st.dist u 0 = (dval st.dist u, st.dist) := getIns_dval hkeyu
      by_cases hut : u = t
      · subst hut
        refine ⟨S, ⟨pqRest, st.dist, st.prev⟩, by simp [dijkstraLoop, hpop], ?_⟩
        obtain ⟨hb, hrx⟩ := hinv
        by_cases hstale : dval st.dist u < ((d : ℚ) : WithTop ℚ)
        · have hfint : dval st.dist u ≠ ⊤ := by
            intro htop
            rw [htop] at hstale
            simp at hstale
          have htS : u ∈ S := by
            by_contra htS
            obtain ⟨q, hq, hmem⟩ := hb.inQueue u hnodeu htS hfint
            have h2 := popMin_min hpop _ hmem
            rw [hq] at hstale
            have h3 : q < d := by exact_mod_cast hstale
            simp only at h2
            linarith
          exact ⟨hb.distKeys, hb.prevKeys, hb.snodup, hb.smem, hb.prevS,
            fun vs c hwk => hb.smin u htS vs c hwk,
            fun _ => hb.sfin u htS, hb.distWalk u⟩
        · have hDu : dval st.dist u = ((d : ℚ) : WithTop ℚ) :=
            le_antisymm (hb.pqLB _ (popMin_mem hpop)) (not_lt.mp hstale)
          refine ⟨hb.distKeys, hb.prevKeys, hb.snodup, hb.smem, hb.prevS, ?_, ?_,
            hb.distWalk u⟩
          · intro vs c hwk
            rcases pop_lower_bound hwf hnn hs hb hrx (popMin_min hpop) hwk with
              h2 | ⟨_, h2⟩
            · rw [hDu]
              exact_mod_cast h2
            · exact h2
          · intro _
            rw [hDu]
            exact WithTop.coe_ne_top
      · by_cases hstale : dval st.dist u < ((d : ℚ) : WithTop ℚ)
        · have hstep : dijkstraLoop g t (fuel + 1) st =
              dijkstraLoop g t fuel ⟨pqRest, st.dist, st.prev⟩ := by
            simp only [dijkstraLoop, hpop, hgi]
            rw [if_neg hut, if_pos hstale]
          have hinv2 := stale_step hinv hpop hstale
          have hm2 : pqRest.length + remESum g.adjList S < fuel := by omega
          obtain ⟨S2, st2, hrun, hfin⟩ := ih S _ hinv2 hm2
          exact ⟨S2, st2, by rw [hstep, hrun], hfin⟩
        · obtain ⟨hunotS, _, hDu, hb2, hdone⟩ := settle_step hwf hnn hs hinv hpop hstale
          have hrel := relaxEdges_master g s u d (S ++ [u]) hwf hnn
            (List.mem_append_right _ (List.mem_singleton_self u))
            (g.getRoutes u) st.dist st.prev pqRest (fun _ he => he) hb2 hDu hdone
          have hinv3 : Inv g s (S ++ [u])
              ⟨(relaxEdges d u (g.getRoutes u) st.dist st.prev pqRest).2.2,
                (relaxEdges d u (g.getRoutes u) st.dist st.prev pqRest).1,
                (relaxEdges d u (g.getRoutes u) st.dist st.prev pqRest).2.1⟩ :=
            ⟨hrel.1, hrel.2.1⟩
          have hstep : dijkstraLoop g t (fuel + 1) st =
              dijkstraLoop g t fuel
                ⟨(relaxEdges d u (g.getRoutes u) st.dist st.prev pqRest).2.2,
                  (relaxEdges d u (g.getRoutes u) st.dist st.prev pqRest).1,
                  (relaxEdges d u (g.getRoutes u) st.dist st.prev pqRest).2.1⟩ := by
            simp only [dijkstraLoop, hpop, hgi]
            rw [if_neg hut, if_neg hstale]
          obtain ⟨es, hes⟩ := Option.isSome_iff_exists.mp
            (show (lookupKey g.adjList u).isSome = true from hnodeu)
          have hroutes : g.getRoutes u = es := by
            rw [Graph.getRoutes, hes]
            rfl
          have hms : remESum g.adjList (S ++ [u]) + es.length = remESum g.adjList S :=
            remESum_settle hwf.1 hes hunotS
          have hlen3 := hrel.2.2.1
          have hm2 : (relaxEdges d u (g.getRoutes u) st.dist st.prev pqRest).2.2.length +
              remESum g.adjList (S ++ [u]) < fuel := by
            rw [hroutes] at hlen3 ⊢
            omega
          obtain ⟨S2, st2, hrun, hfin⟩ := ih (S ++ [u]) _ hinv3 hm2
          exact ⟨S2, st2, by rw [hstep, hrun], hfin⟩

/-! ## Termination of the reconstruction loop -/

theorem reconstruct_bound (prev : List (String × String)) (S : List String)
    (hprevS : ∀ v u, lookupKey prev v = some u → u = "" ∨
      (u ∈ S ∧ (v ∈ S → rankIn S u < rankIn S v))) :
    ∀ j curr acc fuel, j + 2 ≤ fuel →
      (∀ u, lookupKey prev curr = some u → u = "" ∨ (u ∈ S ∧ rankIn S u < j)) →
      (reconstruct prev fuel curr acc).2 = true := by
  intro j
  induction j with
  | zero =>
    intro curr acc fuel hfuel hcond
    obtain ⟨f1, rfl⟩ : ∃ f1, fuel = f1 + 1 := ⟨fuel - 1, by omega⟩
    rw [reconstruct]
    by_cases hc : curr = ""
    · simp [hc]
    · simp only [hc, if_false]
      cases hlk : lookupKey prev curr with
      | none => simp
      | some p =>
        have hp : p = "" := by
          rcases hcond p hlk with h | ⟨_, h⟩
          · exact h
          · omega
        subst hp
        simp only
        obtain ⟨f2, rfl⟩ : ∃ f2, f1 = f2 + 1 := ⟨f1 - 1, by omega⟩
        rw [reconstruct]
        simp
  | succ j ihj =>
    intro curr acc fuel hfuel hcond
    obtain ⟨f1, rfl⟩ : ∃ f1, fuel = f1 + 1 := ⟨fuel - 1, by omega⟩
    rw [reconstruct]
    by_cases hc : curr = ""
    · simp [hc]
    · simp only [hc, if_false]
      cases hlk : lookupKey prev curr with
      | none => simp
      | some p =>
        simp only
        rcases hcond p hlk with hp | ⟨hpS, hpj⟩
        · subst hp
          obtain ⟨f2, rfl⟩ : ∃ f2, f1 = f2 + 1 := ⟨f1 - 1, by omega⟩
          rw [reconstruct]
          simp
        · apply ihj p (curr :: acc) f1 (by omega)
          intro u hu
          rcases hprevS p u hu with h | ⟨huS, hord⟩
          · exact Or.inl h
          · exact Or.inr ⟨huS, lt_of_lt_of_le (hord hpS) (Nat.lt_succ_iff.mp hpj)⟩

theorem reconstruct_terminates (g : Graph) (prev : List (String × String))
    (S : List String) (t : String)
    (hsnodup : S.Nodup) (hsmem : ∀ u ∈ S, g.hasAirport u = true)
    (hprevS : ∀ v u, lookupKey prev v = some u → u = "" ∨
      (u ∈ S ∧ (v ∈ S → rankIn S u < rankIn S v))) :
    (reconstruct prev (g.adjList.length + 2) t []).2 = true := by
  have hsub : S ⊆ g.adjList.map Prod.fst := fun a ha =>
    (lookupKey_isSome_iff_mem g.adjList a).mp (hsmem a ha)
  have hSlen : S.length ≤ g.adjList.length := by
    have h2 := List.Subperm.length_le (hsnodup.subperm hsub)
    simpa using h2
  apply reconstruct_bound prev S hprevS S.length t [] _ (by omega)
  intro u hu
  rcases hprevS t u hu with h | ⟨huS, _⟩
  · exact Or.inl h
  · exact Or.inr ⟨huS, rankIn_lt_length huS⟩

/-! ## Exit facts of a full query -/

theorem findShortestPath_exit (g : Graph) (s t : String)
    (hwf : WF g) (hnn : NonNeg g) (hs : g.hasAirport s = true)
    (ht : g.hasAirport t = true) :
    ∃ S2 st2,
      dijkstraLoop g t (edgeCount g + 2)
          ⟨[⟨s, 0⟩], setKey (initDist g) s 0, initPrev g⟩ = (st2, true) ∧
        FinalS g s t S2 st2 ∧
        findShortestPath g s t =
          { path := (reconstruct st2.prev (g.adjList.length + 2) t []).1,
            totalDistance := dval st2.dist t } := by
  have hinv0 := inv_init g s hs
  have hm0 : ([⟨s, (0 : ℚ)⟩] : List QueueNode).length + remESum g.adjList [] <
      edgeCount g + 2 := by
    rw [remESum_nil]
    simp only [edgeCount, List.length_singleton]
    omega
  obtain ⟨S2, st2, hrun, hfin⟩ := dijkstraLoop_master g s t hwf hnn hs
    (edgeCount g + 2) [] _ hinv0 hm0
  refine ⟨S2, st2, hrun, hfin, ?_⟩
  have hguard : (!g.hasAirport s || !g.hasAirport t) = false := by
    rw [hs, ht]
    rfl
  simp only [findShortestPath, hguard, Bool.false_eq_true, if_false, hrun]
  obtain ⟨dv, hdv⟩ := Option.isSome_iff_exists.mp
    (show (lookupKey st2.dist t).isSome = true by rw [hfin.distKeys]; exact ht)
  rw [hdv]
  rw [show dval st2.dist t = dv by rw [dval, hdv]; rfl]

theorem findShortestPath_totalDistance_least (g : Graph) (s t : String)
    (hwf : WF g) (hnn : NonNeg g) (hs : g.hasAirport s = true)
    (ht : g.hasAirport t = true) (hreach : ∃ vs c, IsWalk g s t vs c) :
    ∃ c₀ : ℚ, (findShortestPath g s t).totalDistance = ((c₀ : ℚ) : WithTop ℚ) ∧
      IsLeast {c : ℚ | ∃ vs, IsWalk g s t vs c ∧ vs.Nodup} c₀ := by
  obtain ⟨S2, st2, hrun, hfin, heq⟩ := findShortestPath_exit g s t hwf hnn hs ht
  have hne := hfin.tfin hreach
  obtain ⟨c₀, hc₀⟩ := WithTop.ne_top_iff_exists.mp hne
  refine ⟨c₀, ?_, ?_, ?_⟩
  · rw [heq]
    exact hc₀.symm
  · obtain ⟨vs, c, hwk, hdc⟩ := hfin.twalk hne
    have hcc : c = c₀ := by
      have h2 : ((c₀ : ℚ) : WithTop ℚ) = ((c : ℚ) : WithTop ℚ) := hc₀.trans hdc
      exact_mod_cast h2.symm
    obtain ⟨vs2, c2, hwk2, hnd2, hle2⟩ := walk_to_path hnn vs.length vs c le_rfl hwk
    have hge : c₀ ≤ c2 := by
      have h2 := hfin.tmin vs2 c2 hwk2
      rw [← hc₀] at h2
      exact_mod_cast h2
    have hcs : c2 = c₀ := le_antisymm (hcc ▸ hle2) hge
    exact ⟨vs2, hcs ▸ hwk2, hnd2⟩
  · intro c hc
    obtain ⟨vs, hwk, _⟩ := hc
    have h2 := hfin.tmin vs c hwk
    rw [← hc₀] at h2
    exact_mod_cast h2

/-- C1 (claim): for every well-formed graph with non-negative edge weights and
airports `s`, `t` that exist in the graph, if at least one path from `s` to
`t` exists then `findShortestPath(G, s, t).totalDistance` equals the minimum
over all paths (duplicate-free walks) from `s` to `t` of the sum of their
edge weights. Well-formedness (distinct adjacency keys, edges pointing at
known airports) holds for every graph built through the `Graph` API. -/
theorem findShortestPath_optimal (g : Graph) (s t : String)
    (hwf : WF g) (hnn : NonNeg g) (hs : g.hasAirport s = true)
    (ht : g.hasAirport t = true)
    (hpath : ∃ vs c, IsWalk g s t vs c ∧ vs.Nodup) :
    ∃ c₀ : ℚ, (findShortestPath g s t).totalDistance = ((c₀ : ℚ) : WithTop ℚ) ∧
      IsLeast {c : ℚ | ∃ vs, IsWalk g s t vs c ∧ vs.Nodup} c₀ := by
  obtain ⟨vs, c, hwk, _⟩ := hpath
  exact findShortestPath_totalDistance_least g s t hwf hnn hs ht ⟨vs, c, hwk⟩

theorem findShortestPath_optimal_witness :
    (WF mainGraph ∧ NonNeg mainGraph ∧ mainGraph.hasAirport "JFK" = true ∧
        mainGraph.hasAirport "DFW" = true ∧
        (∃ vs c, IsWalk mainGraph "JFK" "DFW" vs c ∧ vs.Nodup)) ∧
      (∃ c₀ : ℚ,
        (findShortestPath mainGraph "JFK" "DFW").totalDistance = ((c₀ : ℚ) : WithTop ℚ) ∧
        IsLeast {c : ℚ | ∃ vs, IsWalk mainGraph "JFK" "DFW" vs c ∧ vs.Nodup} c₀) := by
  have hwf : WF mainGraph := ⟨by decide, by decide⟩
  have hnn : NonNeg mainGraph := by
    show ∀ pr ∈ mainGraph.adjList, ∀ e ∈ pr.2, 0 ≤ e.distance
    decide
  have hpath : ∃ vs c, IsWalk mainGraph "JFK" "DFW" vs c ∧ vs.Nodup := by
    refine ⟨["JFK", "ORD", "DFW"], (0 + 800) + 1650, ?_, by decide⟩
    have h1 : (⟨"ORD", 800⟩ : Edge) ∈ mainGraph.getRoutes "JFK" := by decide
    have h2 : (⟨"DFW", 1650⟩ : Edge) ∈ mainGraph.getRoutes "ORD" := by decide
    exact IsWalk.snoc (IsWalk.snoc IsWalk.nil h1) h2
  exact ⟨⟨hwf, hnn, by decide, by decide, hpath⟩,
    findShortestPath_optimal mainGraph "JFK" "DFW" hwf hnn (by decide) (by decide) hpath⟩

/-! ## Termination (claim C10) -/

/-- C10 (claim): for every well-formed finite graph with non-negative weights
and existing endpoints, the main priority-queue loop reaches its own exit
condition within `edgeCount g + 2` iterations (an airport is re-inserted into
the queue only when its tentative distance strictly decreases, and each
airport relaxes its edges at most once), and the reconstruction loop walks
predecessor links for at most `adjList.length + 2` steps, so `findShortestPath`
terminates. When either endpoint is missing, the guard returns before either
loop runs (see the unknown-endpoint theorem). -/
theorem findShortestPath_terminates (g : Graph) (s t : String)
    (hwf : WF g) (hnn : NonNeg g) (hs : g.hasAirport s = true)
    (ht : g.hasAirport t = true) :
    (dijkstraLoop g t (edgeCount g + 2)
        ⟨[⟨s, 0⟩], setKey (initDist g) s 0, initPrev g⟩).2 = true ∧
      (reconstruct (dijkstraLoop g t (edgeCount g + 2)
          ⟨[⟨s, 0⟩], setKey (initDist g) s 0, initPrev g⟩).1.prev
        (g.adjList.length + 2) t []).2 = true := by
  obtain ⟨S2, st2, hrun, hfin, _⟩ := findShortestPath_exit g s t hwf hnn hs ht
  constructor
  · rw [hrun]
  · rw [hrun]
    exact reconstruct_terminates g st2.prev S2 t hfin.snodup hfin.smem hfin.prevS

theorem findShortestPath_terminates_witness :
    (WF mainGraph ∧ NonNeg mainGraph ∧ mainGraph.hasAirport "JFK" = true ∧
        mainGraph.hasAirport "DFW" = true) ∧
      (dijkstraLoop mainGraph "DFW" (edgeCount mainGraph + 2)
          ⟨[⟨"JFK", 0⟩], setKey (initDist mainGraph) "JFK" 0, initPrev mainGraph⟩).2
          = true ∧
      (reconstruct (dijkstraLoop mainGraph "DFW" (edgeCount mainGraph + 2)
          ⟨[⟨"JFK", 0⟩], setKey (initDist mainGraph) "JFK" 0,
            initPrev mainGraph⟩).1.prev
        (mainGraph.adjList.length + 2) "DFW" []).2 = true := by
  have hwf : WF mainGraph := ⟨by decide, by decide⟩
  have hnn : NonNeg mainGraph := by
    show ∀ pr ∈ mainGraph.adjList, ∀ e ∈ pr.2, 0 ≤ e.distance
    decide
  exact ⟨⟨hwf, hnn, by decide, by decide⟩,
    findShortestPath_terminates mainGraph "JFK" "DFW" hwf hnn (by decide) (by decide)⟩

/-! ## The one-route graph (claim C6) -/

theorem addRoute_empty_adjList (a b : String) (w : ℚ) (hab : a ≠ b) :
    (Graph.addRoute ⟨[]⟩ a b w).adjList =
      [(a, [⟨b, w⟩]), (b, [⟨a, w⟩])] := by
  show pushEdge (pushEdge [] a ⟨b, w⟩) b ⟨a, w⟩ = _
  simp [pushEdge, hab]

/-- In the graph holding only the (undirected) route between `a` and `b`,
every walk ending away from its start uses at least one edge, and every edge
costs `w`. -/
theorem oneRoute_walk_lb (a b : String) (w : ℚ) (hab : a ≠ b) (hw : 0 ≤ w) :
    ∀ {src x : String} {vs : List String} {c : ℚ},
      IsWalk (Graph.addRoute ⟨[]⟩ a b w) src x vs c → 0 ≤ c ∧ (x ≠ src → w ≤ c) := by
  intro src x vs c h
  induction h with
  | nil => exact ⟨le_refl 0, fun hh => absurd rfl hh⟩
  | @snoc v2 t2 vs2 c2 w2 hw2 he ih =>
    have hroutes : (Graph.addRoute ⟨[]⟩ a b w).getRoutes v2 =
        if a = v2 then [⟨b, w⟩] else if b = v2 then [⟨a, w⟩] else [] := by
      rw [Graph.getRoutes, addRoute_empty_adjList a b w hab]
      by_cases h1 : a = v2
      · simp [lookupKey, h1]
      · by_cases h2 : b = v2 <;> simp [lookupKey, h1, h2]
    rw [hroutes] at he
    have hw2w : w2 = w := by
      by_cases h1 : a = v2
      · rw [if_pos h1] at he
        have heq := List.mem_singleton.mp he
        exact congrArg Edge.distance heq
      · rw [if_neg h1] at he
        by_cases h2 : b = v2
        · rw [if_pos h2] at he
          have heq := List.mem_singleton.mp he
          exact congrArg Edge.distance heq
        · rw [if_neg h2] at he
          cases he
    obtain ⟨hc0, _⟩ := ih
    subst hw2w
    exact ⟨by linarith, fun _ => by linarith⟩

/-- C6 (amended): for distinct airports `a ≠ b`, `addRoute(a, b, w)` appends
exactly one edge `a→b` of weight `w` and one reciprocal edge `b→a` of the same
weight, leaving every other airport's adjacency unchanged; and in the graph
containing only this single route with `w ≥ 0`, the query in either direction
reports total distance exactly `w`. (For `a = b` the code still appends two
self-loop entries, but the self-query reports 0, not `w` — see the
counterexample.) -/
theorem addRoute_pair_and_symmetric (g : Graph) (a b : String) (w : ℚ)
    (hab : a ≠ b) (hw : 0 ≤ w) :
    (g.addRoute a b w).getRoutes a = g.getRoutes a ++ [⟨b, w⟩] ∧
      (g.addRoute a b w).getRoutes b = g.getRoutes b ++ [⟨a, w⟩] ∧
      (∀ x, x ≠ a → x ≠ b → (g.addRoute a b w).getRoutes x = g.getRoutes x) ∧
      (findShortestPath (Graph.addRoute ⟨[]⟩ a b w) a b).totalDistance
          = ((w : ℚ) : WithTop ℚ) ∧
      (findShortestPath (Graph.addRoute ⟨[]⟩ a b w) b a).totalDistance
          = ((w : ℚ) : WithTop ℚ) := by
  have hba : b ≠ a := fun h => hab h.symm
  have hadj : (Graph.addRoute ⟨[]⟩ a b w).adjList = [(a, [⟨b, w⟩]), (b, [⟨a, w⟩])] :=
    addRoute_empty_adjList a b w hab
  have hwf1 : WF (Graph.addRoute ⟨[]⟩ a b w) := by
    constructor
    · rw [hadj]
      simp [hab]
    · intro pr hpr e he
      rw [hadj] at hpr
      rcases List.mem_cons.mp hpr with rfl | hpr
      · have he2 := List.mem_singleton.mp he
        subst he2
        rw [Graph.hasAirport, hadj]
        simp [lookupKey, hab]
      · have hpr2 := List.mem_singleton.mp hpr
        subst hpr2
        have he2 := List.mem_singleton.mp he
        subst he2
        rw [Graph.hasAirport, hadj]
        simp [lookupKey]
  have hnn1 : NonNeg (Graph.addRoute ⟨[]⟩ a b w) := by
    intro pr hpr e he
    rw [hadj] at hpr
    rcases List.mem_cons.mp hpr with rfl | hpr
    · have he2 := List.mem_singleton.mp he
      subst he2
      exact hw
    · have hpr2 := List.mem_singleton.mp hpr
      subst hpr2
      have he2 := List.mem_singleton.mp he
      subst he2
      exact hw
  have hsa : (Graph.addRoute ⟨[]⟩ a b w).hasAirport a = true := by
    rw [Graph.hasAirport, hadj]
    simp [lookupKey]
  have hsb : (Graph.addRoute ⟨[]⟩ a b w).hasAirport b = true := by
    rw [Graph.hasAirport, hadj]
    simp [lookupKey, hab]
  have hra : (Graph.addRoute ⟨[]⟩ a b w).getRoutes a = [⟨b, w⟩] := by
    rw [Graph.getRoutes, hadj]
    simp [lookupKey]
  have hrb : (Graph.addRoute ⟨[]⟩ a b w).getRoutes b = [⟨a, w⟩] := by
    rw [Graph.getRoutes, hadj]
    simp [lookupKey, hab]
  have hquery : ∀ x y : String, x ≠ y →
      (⟨y, w⟩ : Edge) ∈ (Graph.addRoute ⟨[]⟩ a b w).getRoutes x →
      (Graph.addRoute ⟨[]⟩ a b w).hasAirport x = true →
      (Graph.addRoute ⟨[]⟩ a b w).hasAirport y = true →
      (findShortestPath (Graph.addRoute ⟨[]⟩ a b w) x y).totalDistance
        = ((w : ℚ) : WithTop ℚ) := by
    intro x y hxy hmem hhx hhy
    have hwalk0 : IsWalk (Graph.addRoute ⟨[]⟩ a b w) x y [x, y] (0 + w) :=
      IsWalk.snoc IsWalk.nil hmem
    have hwalk : IsWalk (Graph.addRoute ⟨[]⟩ a b w) x y [x, y] w := by
      rwa [zero_add] at hwalk0
    obtain ⟨c₀, htd, hmem0, hlb⟩ := findShortestPath_totalDistance_least
      (Graph.addRoute ⟨[]⟩ a b w) x y hwf1 hnn1 hhx hhy ⟨[x, y], w, hwalk⟩
    have hle : c₀ ≤ w := hlb ⟨[x, y], hwalk, by simp [hxy]⟩
    have hge : w ≤ c₀ := by
      obtain ⟨vs0, hw0, _⟩ := hmem0
      exact (oneRoute_walk_lb a b w hab hw hw0).2 (fun hh => hxy hh.symm)
    rw [htd, le_antisymm hle hge]
  refine ⟨?_, ?_, ?_, ?_, ?_⟩
  · rw [Graph.getRoutes, Graph.getRoutes]
    show (lookupKey (pushEdge (pushEdge g.adjList a ⟨b, w⟩) b ⟨a, w⟩) a).getD [] = _
    rw [lookupKey_pushEdge, if_neg hba, lookupKey_pushEdge, if_pos rfl]
    rfl
  · rw [Graph.getRoutes, Graph.getRoutes]
    show (lookupKey (pushEdge (pushEdge g.adjList a ⟨b, w⟩) b ⟨a, w⟩) b).getD [] = _
    rw [lookupKey_pushEdge, if_pos rfl, lookupKey_pushEdge, if_neg hab]
    rfl
  · intro x hxa hxb
    rw [Graph.getRoutes, Graph.getRoutes]
    show (lookupKey (pushEdge (pushEdge g.adjList a ⟨b, w⟩) b ⟨a, w⟩) x).getD [] = _
    rw [lookupKey_pushEdge, if_neg (fun hh => hxb hh.symm),
      lookupKey_pushEdge, if_neg (fun hh => hxa hh.symm)]
  · exact hquery a b hab (by rw [hra]; exact List.mem_singleton_self _) hsa hsb
  · exact hquery b a hba (by rw [hrb]; exact List.mem_singleton_self _) hsb hsa

theorem addRoute_pair_and_symmetric_witness :
    ("X" ≠ "Y" ∧ (0 : ℚ) ≤ 7) ∧
      (((⟨[]⟩ : Graph).addRoute "X" "Y" 7).getRoutes "X" =
          (⟨[]⟩ : Graph).getRoutes "X" ++ [⟨"Y", 7⟩] ∧
        ((⟨[]⟩ : Graph).addRoute "X" "Y" 7).getRoutes "Y" =
          (⟨[]⟩ : Graph).getRoutes "Y" ++ [⟨"X", 7⟩] ∧
        (∀ x, x ≠ "X" → x ≠ "Y" →
          ((⟨[]⟩ : Graph).addRoute "X" "Y" 7).getRoutes x = (⟨[]⟩ : Graph).getRoutes x) ∧
        (findShortestPath (Graph.addRoute ⟨[]⟩ "X" "Y" 7) "X" "Y").totalDistance
            = ((7 : ℚ) : WithTop ℚ) ∧
        (findShortestPath (Graph.addRoute ⟨[]⟩ "X" "Y" 7) "Y" "X").totalDistance
            = ((7 : ℚ) : WithTop ℚ)) := by
  have h7 : (0 : ℚ) ≤ 7 := by norm_num
  exact ⟨⟨by decide, h7⟩,
    addRoute_pair_and_symmetric (⟨[]⟩ : Graph) "X" "Y" 7 (by decide) h7⟩

/-! ## Every graph built through the API is well-formed -/

theorem pushEdge_keys (l : List (String × List Edge)) (k : String) (e : Edge) :
    (pushEdge l k e).map Prod.fst =
      if (lookupKey l k).isSome then l.map Prod.fst else l.map Prod.fst ++ [k] := by
  induction l with
  | nil => simp [pushEdge, lookupKey]
  | cons hd tl ih =>
    obtain ⟨k2, es⟩ := hd
    by_cases hk : k2 = k
    · subst hk
      simp [pushEdge, lookupKey]
    · simp only [pushEdge, hk, if_false, lookupKey, List.map_cons, ih]
      by_cases h2 : (lookupKey tl k).isSome <;> simp [h2]

theorem pushEdge_edges {l : List (String × List Edge)} {k : String} {e0 : Edge}
    {pr : String × List Edge} (hpr : pr ∈ pushEdge l k e0) {e : Edge}
    (he : e ∈ pr.2) : e = e0 ∨ ∃ pr2 ∈ l, e ∈ pr2.2 := by
  induction l with
  | nil =>
    rw [pushEdge] at hpr
    have h2 := List.mem_singleton.mp hpr
    subst h2
    exact Or.inl (List.mem_singleton.mp he)
  | cons hd tl ih =>
    obtain ⟨k2, es⟩ := hd
    by_cases hk : k2 = k
    · subst hk
      rw [pushEdge, if_pos rfl] at hpr
      rcases List.mem_cons.mp hpr with rfl | hpr
      · rcases List.mem_append.mp he with he | he
        · exact Or.inr ⟨(k2, es), List.mem_cons_self _ _, he⟩
        · exact Or.inl (List.mem_singleton.mp he)
      · exact Or.inr ⟨pr, List.mem_cons_of_mem _ hpr, he⟩
    · rw [pushEdge, if_neg hk] at hpr
      rcases List.mem_cons.mp hpr with rfl | hpr
      · exact Or.inr ⟨(k2, es), List.mem_cons_self _ _, he⟩
      · rcases ih hpr with h2 | ⟨pr2, h2, h3⟩
        · exact Or.inl h2
        · exact Or.inr ⟨pr2, List.mem_cons_of_mem _ h2, h3⟩

theorem pushEdge_keys_nodup {l : List (String × List Edge)} (k : String) (e : Edge)
    (h : (l.map Prod.fst).Nodup) : ((pushEdge l k e).map Prod.fst).Nodup := by
  rw [pushEdge_keys]
  by_cases h2 : (lookupKey l k).isSome
  · simpa [h2]
  · rw [if_neg h2]
    rw [List.nodup_append]
    refine ⟨h, List.nodup_singleton k, ?_⟩
    intro a ha hak
    have h3 := List.mem_singleton.mp hak
    subst h3
    exact h2 ((lookupKey_isSome_iff_mem l a).mpr ha)

theorem wf_addAirport {g : Graph} (h : WF g) (id : String) : WF (g.addAirport id) := by
  by_cases hid : g.hasAirport id = true
  · rw [show g.addAirport id = g by simp [Graph.addAirport, hid]]
    exact h
  · have hadj : (g.addAirport id).adjList = g.adjList ++ [(id, [])] := by
      simp [Graph.addAirport, hid]
    constructor
    · rw [hadj]
      simp only [List.map_append, List.map_cons, List.map_nil]
      rw [List.nodup_append]
      refine ⟨h.1, List.nodup_singleton id, ?_⟩
      intro a ha hak
      have h3 := List.mem_singleton.mp hak
      subst h3
      exact hid ((lookupKey_isSome_iff_mem g.adjList a).mpr ha)
    · intro pr hpr e he
      rw [hadj] at hpr
      have hmono : ∀ x, g.hasAirport x = true → (g.addAirport id).hasAirport x = true := by
        intro x hx
        rw [hasAirport_addAirport]
        simp [hx]
      rcases List.mem_append.mp hpr with hpr | hpr
      · exact hmono _ (h.2 pr hpr e he)
      · have h3 := List.mem_singleton.mp hpr
        subst h3
        cases he

theorem wf_addRoute {g : Graph} (h : WF g) (a b : String) (w : ℚ) :
    WF (g.addRoute a b w) := by
  have hmono : ∀ x, g.hasAirport x = true → (g.addRoute a b w).hasAirport x = true := by
    intro x hx
    rw [hasAirport_addRoute]
    simp [hx]
  have hina : (g.addRoute a b w).hasAirport a = true := by
    rw [hasAirport_addRoute]
    simp
  have hinb : (g.addRoute a b w).hasAirport b = true := by
    rw [hasAirport_addRoute]
    simp
  constructor
  · exact pushEdge_keys_nodup b ⟨a, w⟩ (pushEdge_keys_nodup a ⟨b, w⟩ h.1)
  · intro pr hpr e he
    rcases pushEdge_edges hpr he with rfl | ⟨pr2, hpr2, he2⟩
    · exact hina
    · rcases pushEdge_edges hpr2 he2 with rfl | ⟨pr3, hpr3, he3⟩
      · exact hinb
      · exact hmono _ (h.2 pr3 hpr3 e he3)

/-- Well-formedness (the hypothesis of the optimality and termination
theorems) holds for every graph built through the public API from the empty
graph, as the spec's data model prescribes. -/
theorem buildGraph_wf (ops : List Op) : WF (buildGraph ops) := by
  suffices h : ∀ g : Graph, WF g → WF (ops.foldl applyOp g) by
    refine h ⟨[]⟩ ⟨List.nodup_nil, ?_⟩
    intro pr hpr
    cases hpr
  induction ops with
  | nil => exact fun g hg => hg
  | cons op rest ih =>
    intro g hg
    rw [List.foldl_cons]
    apply ih
    cases op with
    | addAirport id => exact wf_addAirport hg id
    | addRoute a b w => exact wf_addRoute hg a b w

end AFO
